import Mathlib

/-!
Verification of `scripts/merge_szse_l3.py` (and the `ExecType` mapping of
`scripts/merge_szse_l3_polars.py`): a shallow embedding of the normalizer,
per-source validator, bounded k-way merger and the CLI driver, together with
proofs of the functional-correctness, error-handling and termination
properties of the merge pipeline.

Files are modelled at the line level: an event file is a header line plus a
list of data lines (every line written by `csv.writer` is terminated, so
lines are atomic strings).  Machine integers do not occur: Python integers
are unbounded and are modelled by `Int`.
-/

namespace SzseMerge

/-! ## Python `int()` over strings

`int(s)` strips ASCII whitespace, accepts one optional sign, and then a
nonempty digit string in which single underscores may separate digits.
On failure it raises `ValueError("invalid literal for int() with base 10: ...")`
(the message holds the repr of the offending string, modelled here by
wrapping it in single quotes).  Only ASCII digits/whitespace are modelled. -/

def isPySpace (c : Char) : Bool :=
  c == ' ' || c == '\t' || c == '\n' || c == '\r' || c == '\x0b' || c == '\x0c'

def pyStrip (cs : List Char) : List Char :=
  ((cs.dropWhile isPySpace).reverse.dropWhile isPySpace).reverse

/-- Digit groups separated by single underscores: `digit (digit | _ digit)*`.
Accumulates the value; `none` on any malformed shape. -/
def pyDigitsGo (acc : Nat) : List Char → Option Nat
  | [] => some acc
  | '_' :: c :: cs =>
      if c.isDigit then pyDigitsGo (acc * 10 + (c.toNat - '0'.toNat)) cs else none
  | '_' :: [] => none
  | c :: cs =>
      if c.isDigit then pyDigitsGo (acc * 10 + (c.toNat - '0'.toNat)) cs else none

def pyDigits : List Char → Option Nat
  | [] => none
  | c :: cs =>
      if c.isDigit then pyDigitsGo (c.toNat - '0'.toNat) cs else none

def invalidLiteralMsg (s : String) : String :=
  "invalid literal for int() with base 10: '" ++ s ++ "'"

def pyInt (s : String) : Except String Int :=
  let t := pyStrip s.data
  let body : Option Int :=
    match t with
    | '+' :: rest => (pyDigits rest).map (fun n => (n : Int))
    | '-' :: rest => (pyDigits rest).map (fun n => -(n : Int))
    | rest => (pyDigits rest).map (fun n => (n : Int))
  match body with
  | some v => .ok v
  | none => .error (invalidLiteralMsg s)

/-! ## `parse_key`

`line.split(",", 2)` splits on at most the first two commas; the first two
fields must parse as integers.  `ValueError(f"Invalid line: {line!r}")` is
raised when fewer than two fields are present (repr again modelled by
single quotes). -/

/-- `str.split(sep, maxsplit)` for a one-character separator. -/
def pySplitGo (sep : Char) : Nat → List Char → List Char → List String
  | _, cur, [] => [String.mk cur.reverse]
  | 0, cur, rest => [String.mk (cur.reverse ++ rest)]
  | maxsplit + 1, cur, c :: cs =>
      if c == sep then String.mk cur.reverse :: pySplitGo sep maxsplit [] cs
      else pySplitGo sep (maxsplit + 1) (c :: cur) cs

def pySplit (sep : Char) (maxsplit : Nat) (s : String) : List String :=
  pySplitGo sep maxsplit [] s.data

/-- Sort key of one CSV data line: `(ChannelNo, ApplSeqNum)`, the first two
comma-separated fields parsed as integers. -/
abbrev Key := Int × Int

def invalidLineMsg (line : String) : String :=
  "Invalid line: '" ++ line ++ "'"

def parse_key (line : String) : Except String Key :=
  match pySplit ',' 2 line with
  | p0 :: p1 :: _ => do
      let c ← pyInt p0
      let s ← pyInt p1
      .ok (c, s)
  | _ => .error (invalidLineMsg line)

/-! ## The key order

Python compares the tuples `((channel, seq), idx, line)` pushed on the heap
lexicographically; since `idx` is distinct for all entries the `line`
component is never reached, so the heap order is the lexicographic order on
`(channel, seq)` with ties broken by the source index. -/

def keyLE (a b : Key) : Bool :=
  decide (a.1 < b.1 ∨ (a.1 = b.1 ∧ a.2 ≤ b.2))

def keyLT (a b : Key) : Bool := !keyLE b a

/-! ## Event files and the bounded k-way merge (`merge_batch`)

An event file is one header line followed by data lines; its path is kept
for error messages and for the intermediate-file names of
`multi_pass_merge`.  `merge_batch` opens every input, checks that all
headers equal the first file's header, seeds a min-heap with each file's
first data line keyed by `(parse_key line, idx)` and repeatedly pops the
minimum, emitting the line and advancing that file.  The heap always holds
exactly the head line of each non-exhausted file, so it is modelled by a
list of cursors (one per input, in input order); popping takes the leftmost
cursor with minimal key. -/

structure EventFile where
  path : String
  header : String
  data : List String
  deriving Repr, DecidableEq

/-- One open input: `none` once exhausted, otherwise the parsed key of the
pending line, the pending line, and the unread rest of the file. -/
abbrev Cursor := Option (Key × String × List String)

def cursorLines : Cursor → List String
  | none => []
  | some (_, l, r) => l :: r

def totalRem (cs : List Cursor) : Nat :=
  (cs.map (fun c => (cursorLines c).length)).sum

/-- Read (and `parse_key`) the next line of a file, if any. -/
def advance (rest : List String) : Except String Cursor :=
  match rest with
  | [] => .ok none
  | l :: ls => (parse_key l).map (fun k => some (k, l, ls))

/-- Index and content of the heap minimum: the leftmost cursor whose key is
minimal (Python's heap orders by `(key, idx)`, `idx` being the input's
position in the original list). -/
def selectMin : List Cursor → Option (Nat × Key × String × List String)
  | [] => none
  | none :: cs => (selectMin cs).map (fun r => (r.1 + 1, r.2))
  | some (k, l, rest) :: cs =>
      match selectMin cs with
      | none => some (0, k, l, rest)
      | some (j, k', l', r') =>
          if keyLT k' k then some (j + 1, k', l', r') else some (0, k, l, rest)

/-- The `while heap:` loop of `merge_batch`.  The fuel is the total number
of unemitted lines (each iteration emits exactly one line), so with fuel
`totalRem cs` the base case `fuel = 0` coincides with the empty heap. -/
def mergeLoop : Nat → List Cursor → Except String (List String)
  | 0, _ => .ok []
  | fuel + 1, cs =>
      match selectMin cs with
      | none => .ok []
      | some (i, _, line, rest) => do
          let c' ← advance rest
          let out ← mergeLoop fuel (cs.set i c')
          .ok (line :: out)

def headerMismatchMsg (path : String) : String :=
  "Header mismatch in " ++ path

/-- The opening loop of `merge_batch`: per file (in order) check the header
against the first file's, then read and parse its first data line.  Returns
the common header (None only when there were no input files) and the seeded
cursors. -/
def initFiles (header : Option String) : List EventFile → Except String (Option String × List Cursor)
  | [] => .ok (header, [])
  | f :: fs => do
      let h ←
        match header with
        | none => Except.ok f.header
        | some h => if f.header = h then Except.ok h else .error (headerMismatchMsg f.path)
      let c ← advance f.data
      let (h', cs) ← initFiles (some h) fs
      .ok (h', c :: cs)

def merge_batch (files : List EventFile) (output_path : String) :
    Except String (Option EventFile) := do
  let (header?, cs) ← initFiles none files
  match header? with
  | none => .ok none  -- empty input list: merge_batch returns without writing a file
  | some h => do
      let out ← mergeLoop (totalRem cs) cs
      .ok (some ⟨output_path, h, out⟩)

/-! ## `multi_pass_merge`

Rounds of `merge_batch` over consecutive batches of at most `max_open`
paths (the slices `paths[i : i + max_open]`); singleton batches are passed
through unchanged.  The loop runs while more than one path remains; the
final path is moved to the output location.  Each intermediate file is
named `f"{output_path}.merge_{round_id}_{i // max_open}.tmp"`. -/

/-- Consecutive chunks of size `n` (`n ≥ 1`; for `n = 0` Python's
`range(0, len, 0)` raises, modelled as no chunks).  Structured with fuel so
that it computes by `rfl`/`decide`. -/
def chunksGo (n : Nat) : Nat → List α → List (List α)
  | _, [] => []
  | 0, _ :: _ => []
  | fuel + 1, xs => xs.take n :: chunksGo n fuel (xs.drop n)

def chunks (n : Nat) (xs : List α) : List (List α) :=
  if n = 0 then [] else chunksGo n xs.length xs

def mergeTmpPath (output_path : String) (roundId j : Nat) : String :=
  output_path ++ ".merge_" ++ toString roundId ++ "_" ++ toString j ++ ".tmp"

/-- One round: merge every batch (of the chunking of the current path list)
into a fresh intermediate file; a singleton batch is forwarded as is.
(A batch is never empty; an empty batch would contribute no file.) -/
def mergeRound (output_path : String) (maxOpen roundId : Nat) :
    Nat → List (List EventFile) → Except String (List EventFile)
  | _, [] => .ok []
  | j, [p] :: rest => do
      let others ← mergeRound output_path maxOpen roundId (j + 1) rest
      .ok (p :: others)
  | j, batch :: rest => do
      let m ← merge_batch batch (mergeTmpPath output_path roundId j)
      let others ← mergeRound output_path maxOpen roundId (j + 1) rest
      match m with
      | some f => .ok (f :: others)
      | none => .ok others

/-- The `while len(paths) > 1` loop.  The fuel bounds the number of rounds;
since every round with `max_open ≥ 2` strictly shrinks the list, fuel
`paths.length` always suffices (proved below), and running out of fuel —
which models the non-termination of the Python loop for `max_open < 2` —
is reported as an error. -/
def multiPassGo (output_path : String) (maxOpen : Nat) :
    Nat → Nat → List EventFile → Except String (Option EventFile)
  | 0, _, paths =>
      if paths.length ≤ 1 then
        -- shutil.move(paths[0], output_path); empty list leaves no output
        .ok (paths.head?.map (fun f => { f with path := output_path }))
      else .error "multi_pass_merge: no progress"
  | fuel + 1, roundId, paths =>
      if paths.length ≤ 1 then
        .ok (paths.head?.map (fun f => { f with path := output_path }))
      else do
        let next ← mergeRound output_path maxOpen roundId 0 (chunks maxOpen paths)
        multiPassGo output_path maxOpen fuel (roundId + 1) next

def multi_pass_merge (input_paths : List EventFile) (output_path : String) (maxOpen : Nat) :
    Except String (Option EventFile) :=
  multiPassGo output_path maxOpen input_paths.length 0 input_paths

/-! ## The record normalizer / stream validator
(`write_order_events`, `write_tick_events`)

Raw rows arrive from `csv.DictReader`, i.e. every field is a string.  Each
writer streams the rows of one source, parsing `ChannelNo` first, then
applying the optional channel filter, then validating channel consistency
and sequence monotonicity, and finally emitting one 16-field event row. -/

def EVENT_HEADER : List String :=
  ["ChannelNo", "ApplSeqNum", "Event", "Symbol", "OrderID", "BidOrderID",
   "OfferOrderID", "Side", "Price", "Qty", "Amt", "OrdType", "ExecType",
   "TransactTime", "SendingTime", "Source"]

structure OrderRow where
  ChannelNo : String
  ApplSeqNum : String
  Side : String
  Price : String
  OrderQty : String
  OrdType : String
  TransactTime : String
  SendingTime : String
  deriving Repr, DecidableEq

structure TickRow where
  ChannelNo : String
  ApplSeqNum : String
  ExecType : String
  BidApplSeqNum : String
  OfferApplSeqNum : String
  Price : String
  Qty : String
  Amt : String
  TransactTime : String
  SendingTime : String
  deriving Repr, DecidableEq

/-- Split on every occurrence of a character (structurally, so that it
evaluates inside the kernel). -/
def splitAllChar (sep : Char) (s : String) : List String :=
  pySplitGo sep s.data.length [] s.data

/-- `os.path.basename`. -/
def basename (p : String) : String :=
  (splitAllChar '/' p).getLastD ""

/-- The stem of `os.path.splitext`: everything before the last dot, except
that a name whose only dot is leading is kept whole. -/
def splitextStem (s : String) : String :=
  let parts := splitAllChar '.' s
  if parts.length ≤ 1 then s
  else
    let stem := String.intercalate "." parts.dropLast
    if stem = "" then s else stem

def symbolOf (innerPath : String) : String :=
  splitextStem (basename innerPath)

def multipleChannelMsg (innerPath : String) (seen ch : Int) : String :=
  "Multiple ChannelNo values in " ++ innerPath ++ ": " ++ toString seen ++ " vs " ++ toString ch

def orderNotMonotonicMsg (innerPath : String) (seq prev : Int) : String :=
  "Order stream not monotonic: " ++ innerPath ++ " seq " ++ toString seq ++ " < " ++ toString prev

def tickNotMonotonicMsg (innerPath : String) (seq prev : Int) : String :=
  "Tick stream not monotonic: " ++ innerPath ++ " seq " ++ toString seq ++ " < " ++ toString prev

/-- The event row written for one order row (ints are stringified the way
`csv.writer` stringifies them). -/
def mkOrderEventRow (channel seq : Int) (symbol : String) (r : OrderRow) : List String :=
  [toString channel, toString seq, "ORDER", symbol, toString seq, "", "",
   r.Side, r.Price, r.OrderQty, "", r.OrdType, "", r.TransactTime, r.SendingTime, "order"]

/-- `ExecType → Event` for tick rows: `"F" → TRADE`, `"4" → CANCEL`,
anything else `→ TICK` (the if/elif/else of `write_tick_events`). -/
def execTypeKind (exec_type : String) : String :=
  if exec_type = "F" then "TRADE"
  else if exec_type = "4" then "CANCEL"
  else "TICK"

def mkTickEventRow (channel seq : Int) (symbol : String) (r : TickRow) : List String :=
  [toString channel, toString seq, execTypeKind r.ExecType, symbol, "",
   r.BidApplSeqNum, r.OfferApplSeqNum, "", r.Price, r.Qty, r.Amt, "",
   r.ExecType, r.TransactTime, r.SendingTime, "tick"]

/-- `only_channel is not None and channel != only_channel`: the row is
skipped before any validation. -/
def skipChannel (onlyChannel : Option Int) (channel : Int) : Bool :=
  match onlyChannel with
  | some oc => channel != oc
  | none => false

/-- The row loop of `write_order_events`, threading the loop state
(`channel_seen`, `prev_seq`) and returning the final state together with
the emitted event rows. -/
def writeOrderGo (innerPath symbol : String) (onlyChannel : Option Int)
    (channelSeen prevSeq : Option Int) :
    List OrderRow → Except String (Option Int × Option Int × List (List String))
  | [] => .ok (channelSeen, prevSeq, [])
  | r :: rs => do
      let channel ← pyInt r.ChannelNo
      if skipChannel onlyChannel channel then
        writeOrderGo innerPath symbol onlyChannel channelSeen prevSeq rs
      else do
        let seen ←
          match channelSeen with
          | none => Except.ok channel
          | some cs =>
              if cs ≠ channel then .error (multipleChannelMsg innerPath cs channel)
              else Except.ok cs
        let seq ← pyInt r.ApplSeqNum
        match prevSeq with
        | some p =>
            if seq < p then .error (orderNotMonotonicMsg innerPath seq p)
            else do
              let (cs', ps', out) ← writeOrderGo innerPath symbol onlyChannel (some seen) (some seq) rs
              .ok (cs', ps', mkOrderEventRow channel seq symbol r :: out)
        | none => do
            let (cs', ps', out) ← writeOrderGo innerPath symbol onlyChannel (some seen) (some seq) rs
            .ok (cs', ps', mkOrderEventRow channel seq symbol r :: out)

/-- `write_order_events`: returns `none` when no row passed the filter (the
output file is removed), otherwise the resolved channel and the emitted
event rows. -/
def write_order_events (innerPath : String) (rows : List OrderRow) (onlyChannel : Option Int) :
    Except String (Option (Int × List (List String))) := do
  let (channelSeen, _, out) ← writeOrderGo innerPath (symbolOf innerPath) onlyChannel none none rows
  match out with
  | [] => .ok none
  | _ => .ok (channelSeen.map fun c => (c, out))

/-- The row loop of `write_tick_events`. -/
def writeTickGo (innerPath symbol : String) (onlyChannel : Option Int)
    (channelSeen prevSeq : Option Int) :
    List TickRow → Except String (Option Int × Option Int × List (List String))
  | [] => .ok (channelSeen, prevSeq, [])
  | r :: rs => do
      let channel ← pyInt r.ChannelNo
      if skipChannel onlyChannel channel then
        writeTickGo innerPath symbol onlyChannel channelSeen prevSeq rs
      else do
        let seen ←
          match channelSeen with
          | none => Except.ok channel
          | some cs =>
              if cs ≠ channel then .error (multipleChannelMsg innerPath cs channel)
              else Except.ok cs
        let seq ← pyInt r.ApplSeqNum
        match prevSeq with
        | some p =>
            if seq < p then .error (tickNotMonotonicMsg innerPath seq p)
            else do
              let (cs', ps', out) ← writeTickGo innerPath symbol onlyChannel (some seen) (some seq) rs
              .ok (cs', ps', mkTickEventRow channel seq symbol r :: out)
        | none => do
            let (cs', ps', out) ← writeTickGo innerPath symbol onlyChannel (some seen) (some seq) rs
            .ok (cs', ps', mkTickEventRow channel seq symbol r :: out)

def write_tick_events (innerPath : String) (rows : List TickRow) (onlyChannel : Option Int) :
    Except String (Option (Int × List (List String))) := do
  let (channelSeen, _, out) ← writeTickGo innerPath (symbolOf innerPath) onlyChannel none none rows
  match out with
  | [] => .ok none
  | _ => .ok (channelSeen.map fun c => (c, out))

/-! ## CSV serialization and `build_event_files` / `main`

`csv.writer` quotes a field iff it contains the delimiter, a quote or a
line break (QUOTE_MINIMAL), doubling embedded quotes, and terminates each
record with `"\r\n"`. -/

def csvField (s : String) : String :=
  if s.data.any (fun c => c == ',' || c == '"' || c == '\n' || c == '\r') then
    "\"" ++ s.replace "\"" "\"\"" ++ "\""
  else s

def csvLine (fields : List String) : String :=
  String.intercalate "," (fields.map csvField) ++ "\r\n"

/-- The file written by one writer call: header row plus event rows. -/
def eventFileOfRows (path : String) (rows : List (List String)) : EventFile :=
  ⟨path, csvLine EVENT_HEADER, rows.map csvLine⟩

/-- `build_event_files` for the order family: iterate sources in archive
order, apply the symbol filter, write the per-source event file, skip the
sources that produced no rows, and stop once `limit_files` sources have
produced output.  The symbol regular expression is modelled as an abstract
predicate. -/
def buildOrderEventFiles (outDir : String) (symFilter : Option (String → Bool))
    (onlyChannel : Option Int) (limitFiles : Option Nat) (count : Nat) :
    List (String × List OrderRow) → Except String (List (Int × EventFile))
  | [] => .ok []
  | (innerPath, rows) :: rest => do
      let symbol := symbolOf innerPath
      if symFilter.any (fun p => !(p symbol)) then
        buildOrderEventFiles outDir symFilter onlyChannel limitFiles count rest
      else do
        let outPath := outDir ++ "/order_" ++ symbol ++ ".events.csv"
        let res ← write_order_events innerPath rows onlyChannel
        match res with
        | none => buildOrderEventFiles outDir symFilter onlyChannel limitFiles count rest
        | some (channel, out) =>
            if limitFiles.any (fun lim => lim ≤ count + 1) then
              .ok [(channel, eventFileOfRows outPath out)]
            else do
              let others ← buildOrderEventFiles outDir symFilter onlyChannel limitFiles (count + 1) rest
              .ok ((channel, eventFileOfRows outPath out) :: others)

def buildTickEventFiles (outDir : String) (symFilter : Option (String → Bool))
    (onlyChannel : Option Int) (limitFiles : Option Nat) (count : Nat) :
    List (String × List TickRow) → Except String (List (Int × EventFile))
  | [] => .ok []
  | (innerPath, rows) :: rest => do
      let symbol := symbolOf innerPath
      if symFilter.any (fun p => !(p symbol)) then
        buildTickEventFiles outDir symFilter onlyChannel limitFiles count rest
      else do
        let outPath := outDir ++ "/tick_" ++ symbol ++ ".events.csv"
        let res ← write_tick_events innerPath rows onlyChannel
        match res with
        | none => buildTickEventFiles outDir symFilter onlyChannel limitFiles count rest
        | some (channel, out) =>
            if limitFiles.any (fun lim => lim ≤ count + 1) then
              .ok [(channel, eventFileOfRows outPath out)]
            else do
              let others ← buildTickEventFiles outDir symFilter onlyChannel limitFiles (count + 1) rest
              .ok ((channel, eventFileOfRows outPath out) :: others)

/-- Group `(channel, path)` pairs by channel, keeping the first-seen order
of channels and the original order of paths (`dict.setdefault`). -/
def groupByChannel (xs : List (Int × EventFile)) : List (Int × List EventFile) :=
  xs.foldl (fun acc (cp : Int × EventFile) =>
    if acc.any (fun g => g.1 == cp.1) then
      acc.map (fun g => if g.1 == cp.1 then (g.1, g.2 ++ [cp.2]) else g)
    else acc ++ [(cp.1, [cp.2])]) []

structure Config where
  out : Option String
  outDir : Option String
  maxOpen : Int
  limitFiles : Option Nat
  symbolFilter : Option (String → Bool)
  channel : Option Int

def noEventFilesMsg : String :=
  "No event files produced; check filters or input archives."

def bothOutputsMsg : String :=
  "Use either --out or --out-dir, not both."

def neitherOutputMsg : String :=
  "Specify --out (single file) or --out-dir (per-channel)."

/-- The processing part of `main` (after CLI parsing and temp-directory
setup): build the order event files, then the tick event files, then check
that any were produced, then check the output-mode configuration, then
merge — per channel group or globally.  Returns the written output files. -/
def mainModel (cfg : Config) (orderSources : List (String × List OrderRow))
    (tickSources : List (String × List TickRow)) :
    Except String (List EventFile) := do
  let orderPaths ← buildOrderEventFiles "order_events" cfg.symbolFilter cfg.channel
    cfg.limitFiles 0 orderSources
  let tickPaths ← buildTickEventFiles "tick_events" cfg.symbolFilter cfg.channel
    cfg.limitFiles 0 tickSources
  let allPaths := orderPaths ++ tickPaths
  if allPaths.isEmpty then .error noEventFilesMsg
  else if cfg.outDir.isSome && cfg.out.isSome then .error bothOutputsMsg
  else if cfg.outDir.isNone && cfg.out.isNone then .error neitherOutputMsg
  else
    let effOpen := (max 2 cfg.maxOpen).toNat
    match cfg.outDir with
    | some d => do
        let groups := groupByChannel allPaths
        let outs ← groups.mapM (fun g => do
          let r ← multi_pass_merge g.2 (d ++ "/channel_" ++ toString g.1 ++ ".csv") effOpen
          Except.ok r)
        .ok (outs.filterMap id)
    | none => do
        let r ← multi_pass_merge (allPaths.map (·.2)) (cfg.out.getD "") effOpen
        .ok r.toList


/-! ## The Polars implementation's `ExecType` mapping

`build_tick_lazy` of `merge_szse_l3_polars.py` computes the `Event` column
as `when(ExecType == "F").then("TRADE").when(ExecType == "4")
.then("CANCEL").otherwise("TICK")`. -/

def polarsTickEvent (execType : String) : String :=
  if execType = "F" then "TRADE"
  else if execType = "4" then "CANCEL"
  else "TICK"

/-! ## Predicates used in the claim statements -/

/-- The keys of a run of data lines, failing on the first unparseable line. -/
def decodeKeys (lines : List String) : Except String (List Key) :=
  lines.mapM parse_key

/-- Adjacent non-decrease of keys (the spec's "sorted by `(channel,
sequence)` lexicographically"). -/
def sortedKeysB : List Key → Bool
  | [] => true
  | [_] => true
  | a :: b :: rest => keyLE a b && sortedKeysB (b :: rest)

/-- Every data line parses and the keys are non-decreasing. -/
def wellFormedSorted (lines : List String) : Bool :=
  match decodeKeys lines with
  | .ok ks => sortedKeysB ks
  | .error _ => false

def lineKey (l : String) : Option Key :=
  (parse_key l).toOption

/-- The sub-list of lines carrying a given key (used to express
stability). -/
def fiberK (k : Key) (lines : List String) : List String :=
  lines.filter (fun l => lineKey l == some k)

/-- Adjacent non-decrease of integers. -/
def nondecB : List Int → Bool
  | [] => true
  | [_] => true
  | a :: b :: rest => a ≤ b && nondecB (b :: rest)

/-- A row the writers do not skip: its `ChannelNo` parses and survives the
optional channel filter. -/
def passesOrder (oc : Option Int) (r : OrderRow) : Bool :=
  match pyInt r.ChannelNo with
  | .ok c => !(skipChannel oc c)
  | .error _ => false

def passesTick (oc : Option Int) (r : TickRow) : Bool :=
  match pyInt r.ChannelNo with
  | .ok c => !(skipChannel oc c)
  | .error _ => false

/-- Decoded channel of a row (0 only as a junk value for unparseable rows,
which the hypotheses of the theorems below exclude). -/
def chanOfOrder (r : OrderRow) : Int := ((pyInt r.ChannelNo).toOption).getD 0

def seqOfOrder (r : OrderRow) : Int := ((pyInt r.ApplSeqNum).toOption).getD 0

def chanOfTick (r : TickRow) : Int := ((pyInt r.ChannelNo).toOption).getD 0

def seqOfTick (r : TickRow) : Int := ((pyInt r.ApplSeqNum).toOption).getD 0


/-- Whether one character list starts with another. -/
def subAt : List Char → List Char → Bool
  | [], _ => true
  | _ :: _, [] => false
  | a :: as, b :: bs => a == b && subAt as bs

/-- Whether `needle` occurs somewhere in `hay`. -/
def hasSub (needle : List Char) : List Char → Bool
  | [] => needle.isEmpty
  | b :: bs => subAt needle (b :: bs) || hasSub needle bs

/-- Whether `needle` occurs in `hay`; used to state that an error message
does or does not name a source. -/
def mentions (hay needle : String) : Bool :=
  hasSub needle.data hay.data


/-- Well-formedness of a cursor: the pending line parses to the stored key
and the unread rest parses to keys that, together with the pending key,
are non-decreasing. -/
def CursorWF : Cursor → Prop
  | none => True
  | some (k, l, r) =>
      parse_key l = .ok k ∧ ∃ ks, decodeKeys r = .ok ks ∧ sortedKeysB (k :: ks) = true

/-- `b` is a lower bound for the pending key of a cursor. -/
def cursorLB (b : Key) : Cursor → Prop
  | none => True
  | some (k, _, _) => keyLE b k = true

/-! # Theorems -/

theorem keyLE_refl (a : Key) : keyLE a a = true := by
  simp [keyLE]

theorem keyLE_trans {a b c : Key} (h1 : keyLE a b = true) (h2 : keyLE b c = true) :
    keyLE a c = true := by
  simp only [keyLE, decide_eq_true_eq] at *
  rcases h1 with h1 | ⟨h1, h1'⟩ <;> rcases h2 with h2 | ⟨h2, h2'⟩ <;> omega

theorem keyLE_total (a b : Key) : keyLE a b = true ∨ keyLE b a = true := by
  simp only [keyLE, decide_eq_true_eq]
  omega

theorem keyLE_antisymm {a b : Key} (h1 : keyLE a b = true) (h2 : keyLE b a = true) :
    a = b := by
  simp only [keyLE, decide_eq_true_eq] at *
  rcases a with ⟨a1, a2⟩; rcases b with ⟨b1, b2⟩
  simp only [Prod.mk.injEq]
  constructor <;> omega

theorem keyLT_iff {a b : Key} : keyLT a b = true ↔ ¬ keyLE b a = true := by
  simp [keyLT]

theorem keyLT_of_not_keyLE {a b : Key} (h : ¬ keyLE b a = true) : keyLT a b = true := by
  simpa [keyLT] using h

theorem keyLE_of_keyLT {a b : Key} (h : keyLT a b = true) : keyLE a b = true := by
  rcases keyLE_total a b with h' | h'
  · exact h'
  · exact absurd h' (keyLT_iff.mp h)

theorem keyLT_keyLE_trans {a b c : Key} (h1 : keyLT a b = true) (h2 : keyLE b c = true) :
    keyLT a c = true := by
  rw [keyLT_iff] at h1 ⊢
  intro hca
  exact h1 (keyLE_trans h2 hca)

theorem ne_of_keyLT {a b : Key} (h : keyLT a b = true) : b ≠ a := by
  intro he
  rw [he] at h
  exact keyLT_iff.mp h (keyLE_refl a)

/-! ## Small list helpers -/

theorem nondecB_tail {a : Int} {l : List Int} (h : nondecB (a :: l) = true) :
    nondecB l = true := by
  cases l with
  | nil => rfl
  | cons b t =>
      simp only [nondecB, Bool.and_eq_true] at h
      exact h.2

theorem nondecB_head {a b : Int} {l : List Int} (h : nondecB (a :: b :: l) = true) :
    a ≤ b := by
  simp only [nondecB, Bool.and_eq_true, decide_eq_true_eq] at h
  exact h.1

theorem getLast?_or_cons (l : List Int) (s : Int) (ps : Option Int) :
    (l.getLast?).or (some s) = ((s :: l).getLast?).or ps := by
  cases l with
  | nil => rfl
  | cons x t =>
      rw [List.getLast?_cons_cons]
      cases h : (x :: t).getLast? with
      | none => exact absurd h (by simp)
      | some v => rfl

/-! ## `Except` reduction helpers -/

theorem except_bind_ok {α β ε : Type} (a : α) (f : α → Except ε β) :
    (Except.ok a : Except ε α).bind f = f a := rfl

theorem except_bind_err {α β ε : Type} (e : ε) (f : α → Except ε β) :
    (Except.error e : Except ε α).bind f = .error e := rfl

theorem except_map_ok {α β ε : Type} (f : α → β) (a : α) :
    Except.map f (Except.ok a : Except ε α) = .ok (f a) := rfl

theorem except_map_err {α β ε : Type} (f : α → β) (e : ε) :
    Except.map f (Except.error e : Except ε α) = .error e := rfl

theorem except_bindM_ok {α β ε : Type} (a : α) (f : α → Except ε β) :
    (Bind.bind (Except.ok a : Except ε α) f) = f a := rfl

theorem except_bindM_err {α β ε : Type} (e : ε) (f : α → Except ε β) :
    (Bind.bind (Except.error e : Except ε α) f) = .error e := rfl

/-! ## Step lemmas for the writer loops -/

theorem writeOrderGo_step_chanErr {path sym : String} {oc cs ps : Option Int}
    {r : OrderRow} {rs : List OrderRow} {e : String}
    (hc : pyInt r.ChannelNo = .error e) :
    writeOrderGo path sym oc cs ps (r :: rs) = .error e := by
  simp [writeOrderGo, hc, Bind.bind, Except.bind]

theorem writeOrderGo_step_skip {path sym : String} {oc cs ps : Option Int}
    {r : OrderRow} {rs : List OrderRow} {c : Int}
    (hc : pyInt r.ChannelNo = .ok c) (hskip : skipChannel oc c = true) :
    writeOrderGo path sym oc cs ps (r :: rs) = writeOrderGo path sym oc cs ps rs := by
  simp [writeOrderGo, hc, hskip, Bind.bind, Except.bind]

theorem writeOrderGo_step_chanMismatch {path sym : String} {oc ps : Option Int}
    {r : OrderRow} {rs : List OrderRow} {c c0 : Int}
    (hc : pyInt r.ChannelNo = .ok c) (hskip : skipChannel oc c = false) (hne : c0 ≠ c) :
    writeOrderGo path sym oc (some c0) ps (r :: rs) =
      .error (multipleChannelMsg path c0 c) := by
  simp [writeOrderGo, hc, hskip, hne, Bind.bind, Except.bind]

theorem writeOrderGo_step_seqErr {path sym : String} {oc cs ps : Option Int}
    {r : OrderRow} {rs : List OrderRow} {c : Int} {e : String}
    (hc : pyInt r.ChannelNo = .ok c) (hskip : skipChannel oc c = false)
    (hcs : cs = none ∨ cs = some c) (hs : pyInt r.ApplSeqNum = .error e) :
    writeOrderGo path sym oc cs ps (r :: rs) = .error e := by
  rcases hcs with h | h <;> subst h <;>
    simp [writeOrderGo, hc, hskip, hs, Bind.bind, Except.bind]

theorem writeOrderGo_step_monoErr {path sym : String} {oc cs : Option Int}
    {r : OrderRow} {rs : List OrderRow} {c s p : Int}
    (hc : pyInt r.ChannelNo = .ok c) (hskip : skipChannel oc c = false)
    (hcs : cs = none ∨ cs = some c) (hs : pyInt r.ApplSeqNum = .ok s) (hlt : s < p) :
    writeOrderGo path sym oc cs (some p) (r :: rs) =
      .error (orderNotMonotonicMsg path s p) := by
  rcases hcs with h | h <;> subst h <;>
    simp [writeOrderGo, hc, hskip, hs, hlt, Bind.bind, Except.bind]

theorem writeOrderGo_step_emit {path sym : String} {oc cs ps : Option Int}
    {r : OrderRow} {rs : List OrderRow} {c s : Int}
    (hc : pyInt r.ChannelNo = .ok c) (hskip : skipChannel oc c = false)
    (hcs : cs = none ∨ cs = some c) (hs : pyInt r.ApplSeqNum = .ok s)
    (hmono : ∀ p, ps = some p → ¬ s < p) :
    writeOrderGo path sym oc cs ps (r :: rs) =
      (writeOrderGo path sym oc (some c) (some s) rs).map
        (fun st => (st.1, st.2.1, mkOrderEventRow c s sym r :: st.2.2)) := by
  rcases hcs with h | h <;> subst h <;> cases ps with
  | none =>
      simp [writeOrderGo, hc, hskip, hs, Bind.bind, Except.bind, Except.map]
  | some p =>
      have := hmono p rfl
      simp [writeOrderGo, hc, hskip, hs, this, Bind.bind, Except.bind, Except.map]

theorem passesOrder_eq_true {oc : Option Int} {r : OrderRow} {c : Int}
    (hc : pyInt r.ChannelNo = .ok c) (hskip : skipChannel oc c = false) :
    passesOrder oc r = true := by
  simp [passesOrder, hc, hskip]

theorem passesOrder_eq_false_of_skip {oc : Option Int} {r : OrderRow} {c : Int}
    (hc : pyInt r.ChannelNo = .ok c) (hskip : skipChannel oc c = true) :
    passesOrder oc r = false := by
  simp [passesOrder, hc, hskip]

theorem chanOfOrder_eq {r : OrderRow} {c : Int} (hc : pyInt r.ChannelNo = .ok c) :
    chanOfOrder r = c := by
  simp [chanOfOrder, hc, Except.toOption]

theorem seqOfOrder_eq {r : OrderRow} {s : Int} (hs : pyInt r.ApplSeqNum = .ok s) :
    seqOfOrder r = s := by
  simp [seqOfOrder, hs, Except.toOption]

/-- Splitting a writer run at any point: the loop over `xs ++ ys` is the
loop over `xs` continued, from the reached state, over `ys`. -/
theorem writeOrderGo_append (path sym : String) (oc : Option Int) :
    ∀ (xs ys : List OrderRow) (cs ps : Option Int),
    writeOrderGo path sym oc cs ps (xs ++ ys) =
      (writeOrderGo path sym oc cs ps xs).bind (fun st =>
        (writeOrderGo path sym oc st.1 st.2.1 ys).map (fun st2 =>
          (st2.1, st2.2.1, st.2.2 ++ st2.2.2))) := by
  intro xs
  induction xs with
  | nil =>
      intro ys cs ps
      simp only [List.nil_append, writeOrderGo, except_bind_ok]
      cases hx : writeOrderGo path sym oc cs ps ys with
      | error e => rfl
      | ok st =>
          rcases st with ⟨a, b, o⟩
          rfl
  | cons r xs ih =>
      intro ys cs ps
      rw [List.cons_append]
      cases hc : pyInt r.ChannelNo with
      | error e =>
          rw [writeOrderGo_step_chanErr hc, writeOrderGo_step_chanErr hc]
          rfl
      | ok c =>
          cases hskip : skipChannel oc c with
          | true =>
              rw [writeOrderGo_step_skip hc hskip, writeOrderGo_step_skip hc hskip, ih]
          | false =>
              by_cases hcs : cs = none ∨ cs = some c
              · cases hs : pyInt r.ApplSeqNum with
                | error e =>
                    rw [writeOrderGo_step_seqErr hc hskip hcs hs,
                      writeOrderGo_step_seqErr hc hskip hcs hs]
                    rfl
                | ok s =>
                    by_cases hp : ∃ p, ps = some p ∧ s < p
                    · obtain ⟨p, hps, hlt⟩ := hp
                      subst hps
                      rw [writeOrderGo_step_monoErr hc hskip hcs hs hlt,
                        writeOrderGo_step_monoErr hc hskip hcs hs hlt]
                      rfl
                    · have hmono : ∀ p, ps = some p → ¬ s < p := by
                        intro p hps hlt
                        exact hp ⟨p, hps, hlt⟩
                      rw [writeOrderGo_step_emit hc hskip hcs hs hmono,
                        writeOrderGo_step_emit hc hskip hcs hs hmono, ih]
                      cases hx : writeOrderGo path sym oc (some c) (some s) xs with
                      | error e => rfl
                      | ok st =>
                          simp only [except_bind_ok, except_map_ok]
                          cases hy : writeOrderGo path sym oc st.1 st.2.1 ys with
                          | error e => rfl
                          | ok st2 => rfl
              · obtain ⟨c0, hc0, hne⟩ : ∃ c0, cs = some c0 ∧ c0 ≠ c := by
                  cases cs with
                  | none => exact absurd (Or.inl rfl) hcs
                  | some c0 =>
                      refine ⟨c0, rfl, fun he => ?_⟩
                      exact hcs (Or.inr (by rw [he]))
                subst hc0
                rw [writeOrderGo_step_chanMismatch hc hskip hne,
                  writeOrderGo_step_chanMismatch hc hskip hne]
                rfl

/-- Successful run of the order-writer loop: when every row's `ChannelNo`
parses, every passing row's `ApplSeqNum` parses, the passing rows agree on
one channel (compatible with the running `channel_seen`) and their
sequence numbers (prefixed by the running `prev_seq`) never decrease, the
loop succeeds and emits exactly one event row per passing row, in order. -/
theorem writeOrderGo_ok (path sym : String) (oc : Option Int) :
    ∀ (rows : List OrderRow) (cs ps : Option Int),
    (∀ r ∈ rows, (pyInt r.ChannelNo).isOk = true) →
    (∀ r ∈ rows, passesOrder oc r = true → (pyInt r.ApplSeqNum).isOk = true) →
    (∀ r ∈ rows, passesOrder oc r = true → ∀ c, cs = some c → chanOfOrder r = c) →
    (∀ r ∈ rows, ∀ r' ∈ rows, passesOrder oc r = true → passesOrder oc r' = true →
        chanOfOrder r = chanOfOrder r') →
    nondecB (ps.toList ++ (rows.filter (passesOrder oc)).map seqOfOrder) = true →
    writeOrderGo path sym oc cs ps rows =
      .ok (Option.or cs (((rows.filter (passesOrder oc)).head?).map chanOfOrder),
           (((rows.filter (passesOrder oc)).map seqOfOrder).getLast?).or ps,
           (rows.filter (passesOrder oc)).map
             (fun r => mkOrderEventRow (chanOfOrder r) (seqOfOrder r) sym r)) := by
  intro rows
  induction rows with
  | nil =>
      intro cs ps _ _ _ _ _
      simp [writeOrderGo]
  | cons r rs ih =>
      intro cs ps h1 h2 h3 h4 hm
      obtain ⟨c, hc⟩ : ∃ c, pyInt r.ChannelNo = .ok c := by
        have := h1 r (by simp)
        cases hx : pyInt r.ChannelNo with
        | ok v => exact ⟨v, rfl⟩
        | error e => rw [hx] at this; simp [Except.isOk, Except.toBool] at this
      cases hskip : skipChannel oc c with
      | true =>
          have hpass : passesOrder oc r = false := passesOrder_eq_false_of_skip hc hskip
          rw [writeOrderGo_step_skip hc hskip]
          have := ih cs ps (fun x hx => h1 x (by simp [hx]))
            (fun x hx => h2 x (by simp [hx]))
            (fun x hx => h3 x (by simp [hx]))
            (fun x hx x' hx' => h4 x (by simp [hx]) x' (by simp [hx']))
            (by rwa [List.filter_cons_of_neg (by simp [hpass])] at hm)
          rw [this, List.filter_cons_of_neg (by simp [hpass])]
      | false =>
          have hpass : passesOrder oc r = true := passesOrder_eq_true hc hskip
          have hcr : chanOfOrder r = c := chanOfOrder_eq hc
          obtain ⟨s, hs⟩ : ∃ s, pyInt r.ApplSeqNum = .ok s := by
            have := h2 r (by simp) hpass
            cases hx : pyInt r.ApplSeqNum with
            | ok v => exact ⟨v, rfl⟩
            | error e => rw [hx] at this; simp [Except.isOk, Except.toBool] at this
          have hsr : seqOfOrder r = s := seqOfOrder_eq hs
          have hfil : (r :: rs).filter (passesOrder oc) =
              r :: rs.filter (passesOrder oc) := List.filter_cons_of_pos (by simp [hpass])
          rw [hfil] at hm
          have hcs' : cs = none ∨ cs = some c := by
            cases cs with
            | none => exact Or.inl rfl
            | some c0 =>
                right
                have := h3 r (by simp) hpass c0 rfl
                rw [hcr] at this
                rw [this]
          have hmono : ∀ p, ps = some p → ¬ s < p := by
            intro p hp
            subst hp
            simp only [Option.toList, List.map_cons] at hm
            have := nondecB_head (by simpa [hsr] using hm)
            omega
          rw [writeOrderGo_step_emit hc hskip hcs' hs hmono]
          have hm' : nondecB ((some s : Option Int).toList ++
              (rs.filter (passesOrder oc)).map seqOfOrder) = true := by
            cases ps with
            | none => simpa [hsr] using hm
            | some p =>
                simp only [Option.toList, List.map_cons, List.singleton_append,
                  List.cons_append] at hm ⊢
                exact nondecB_tail (by simpa [hsr] using hm)
          have := ih (some c) (some s) (fun x hx => h1 x (by simp [hx]))
            (fun x hx => h2 x (by simp [hx]))
            (fun x hx hpx c' hc' => by
              have hxr := h4 x (by simp [hx]) r (by simp) hpx hpass
              rw [hxr, hcr]
              injection hc')
            (fun x hx x' hx' => h4 x (by simp [hx]) x' (by simp [hx']))
            hm'
          rw [this]
          simp only [Except.map]
          rw [hfil]
          simp only [List.map_cons, List.head?_cons, Option.map_some']
          rw [hcr, hsr]
          rcases hcs' with h | h <;> subst h <;>
            rw [← getLast?_or_cons ((rs.filter (passesOrder oc)).map seqOfOrder) s ps] <;>
            rfl


theorem writeTickGo_step_chanErr {path sym : String} {oc cs ps : Option Int}
    {r : TickRow} {rs : List TickRow} {e : String}
    (hc : pyInt r.ChannelNo = .error e) :
    writeTickGo path sym oc cs ps (r :: rs) = .error e := by
  simp [writeTickGo, hc, Bind.bind, Except.bind]

theorem writeTickGo_step_skip {path sym : String} {oc cs ps : Option Int}
    {r : TickRow} {rs : List TickRow} {c : Int}
    (hc : pyInt r.ChannelNo = .ok c) (hskip : skipChannel oc c = true) :
    writeTickGo path sym oc cs ps (r :: rs) = writeTickGo path sym oc cs ps rs := by
  simp [writeTickGo, hc, hskip, Bind.bind, Except.bind]

theorem writeTickGo_step_chanMismatch {path sym : String} {oc ps : Option Int}
    {r : TickRow} {rs : List TickRow} {c c0 : Int}
    (hc : pyInt r.ChannelNo = .ok c) (hskip : skipChannel oc c = false) (hne : c0 ≠ c) :
    writeTickGo path sym oc (some c0) ps (r :: rs) =
      .error (multipleChannelMsg path c0 c) := by
  simp [writeTickGo, hc, hskip, hne, Bind.bind, Except.bind]

theorem writeTickGo_step_seqErr {path sym : String} {oc cs ps : Option Int}
    {r : TickRow} {rs : List TickRow} {c : Int} {e : String}
    (hc : pyInt r.ChannelNo = .ok c) (hskip : skipChannel oc c = false)
    (hcs : cs = none ∨ cs = some c) (hs : pyInt r.ApplSeqNum = .error e) :
    writeTickGo path sym oc cs ps (r :: rs) = .error e := by
  rcases hcs with h | h <;> subst h <;>
    simp [writeTickGo, hc, hskip, hs, Bind.bind, Except.bind]

theorem writeTickGo_step_monoErr {path sym : String} {oc cs : Option Int}
    {r : TickRow} {rs : List TickRow} {c s p : Int}
    (hc : pyInt r.ChannelNo = .ok c) (hskip : skipChannel oc c = false)
    (hcs : cs = none ∨ cs = some c) (hs : pyInt r.ApplSeqNum = .ok s) (hlt : s < p) :
    writeTickGo path sym oc cs (some p) (r :: rs) =
      .error (tickNotMonotonicMsg path s p) := by
  rcases hcs with h | h <;> subst h <;>
    simp [writeTickGo, hc, hskip, hs, hlt, Bind.bind, Except.bind]

theorem writeTickGo_step_emit {path sym : String} {oc cs ps : Option Int}
    {r : TickRow} {rs : List TickRow} {c s : Int}
    (hc : pyInt r.ChannelNo = .ok c) (hskip : skipChannel oc c = false)
    (hcs : cs = none ∨ cs = some c) (hs : pyInt r.ApplSeqNum = .ok s)
    (hmono : ∀ p, ps = some p → ¬ s < p) :
    writeTickGo path sym oc cs ps (r :: rs) =
      (writeTickGo path sym oc (some c) (some s) rs).map
        (fun st => (st.1, st.2.1, mkTickEventRow c s sym r :: st.2.2)) := by
  rcases hcs with h | h <;> subst h <;> cases ps with
  | none =>
      simp [writeTickGo, hc, hskip, hs, Bind.bind, Except.bind, Except.map]
  | some p =>
      have := hmono p rfl
      simp [writeTickGo, hc, hskip, hs, this, Bind.bind, Except.bind, Except.map]

theorem passesTick_eq_true {oc : Option Int} {r : TickRow} {c : Int}
    (hc : pyInt r.ChannelNo = .ok c) (hskip : skipChannel oc c = false) :
    passesTick oc r = true := by
  simp [passesTick, hc, hskip]

theorem passesTick_eq_false_of_skip {oc : Option Int} {r : TickRow} {c : Int}
    (hc : pyInt r.ChannelNo = .ok c) (hskip : skipChannel oc c = true) :
    passesTick oc r = false := by
  simp [passesTick, hc, hskip]

theorem chanOfTick_eq {r : TickRow} {c : Int} (hc : pyInt r.ChannelNo = .ok c) :
    chanOfTick r = c := by
  simp [chanOfTick, hc, Except.toOption]

theorem seqOfTick_eq {r : TickRow} {s : Int} (hs : pyInt r.ApplSeqNum = .ok s) :
    seqOfTick r = s := by
  simp [seqOfTick, hs, Except.toOption]

/-- Splitting a writer run at any point: the loop over `xs ++ ys` is the
loop over `xs` continued, from the reached state, over `ys`. -/
theorem writeTickGo_append (path sym : String) (oc : Option Int) :
    ∀ (xs ys : List TickRow) (cs ps : Option Int),
    writeTickGo path sym oc cs ps (xs ++ ys) =
      (writeTickGo path sym oc cs ps xs).bind (fun st =>
        (writeTickGo path sym oc st.1 st.2.1 ys).map (fun st2 =>
          (st2.1, st2.2.1, st.2.2 ++ st2.2.2))) := by
  intro xs
  induction xs with
  | nil =>
      intro ys cs ps
      simp only [List.nil_append, writeTickGo, except_bind_ok]
      cases hx : writeTickGo path sym oc cs ps ys with
      | error e => rfl
      | ok st =>
          rcases st with ⟨a, b, o⟩
          rfl
  | cons r xs ih =>
      intro ys cs ps
      rw [List.cons_append]
      cases hc : pyInt r.ChannelNo with
      | error e =>
          rw [writeTickGo_step_chanErr hc, writeTickGo_step_chanErr hc]
          rfl
      | ok c =>
          cases hskip : skipChannel oc c with
          | true =>
              rw [writeTickGo_step_skip hc hskip, writeTickGo_step_skip hc hskip, ih]
          | false =>
              by_cases hcs : cs = none ∨ cs = some c
              · cases hs : pyInt r.ApplSeqNum with
                | error e =>
                    rw [writeTickGo_step_seqErr hc hskip hcs hs,
                      writeTickGo_step_seqErr hc hskip hcs hs]
                    rfl
                | ok s =>
                    by_cases hp : ∃ p, ps = some p ∧ s < p
                    · obtain ⟨p, hps, hlt⟩ := hp
                      subst hps
                      rw [writeTickGo_step_monoErr hc hskip hcs hs hlt,
                        writeTickGo_step_monoErr hc hskip hcs hs hlt]
                      rfl
                    · have hmono : ∀ p, ps = some p → ¬ s < p := by
                        intro p hps hlt
                        exact hp ⟨p, hps, hlt⟩
                      rw [writeTickGo_step_emit hc hskip hcs hs hmono,
                        writeTickGo_step_emit hc hskip hcs hs hmono, ih]
                      cases hx : writeTickGo path sym oc (some c) (some s) xs with
                      | error e => rfl
                      | ok st =>
                          simp only [except_bind_ok, except_map_ok]
                          cases hy : writeTickGo path sym oc st.1 st.2.1 ys with
                          | error e => rfl
                          | ok st2 => rfl
              · obtain ⟨c0, hc0, hne⟩ : ∃ c0, cs = some c0 ∧ c0 ≠ c := by
                  cases cs with
                  | none => exact absurd (Or.inl rfl) hcs
                  | some c0 =>
                      refine ⟨c0, rfl, fun he => ?_⟩
                      exact hcs (Or.inr (by rw [he]))
                subst hc0
                rw [writeTickGo_step_chanMismatch hc hskip hne,
                  writeTickGo_step_chanMismatch hc hskip hne]
                rfl

/-- Successful run of the tick-writer loop: when every row's `ChannelNo`
parses, every passing row's `ApplSeqNum` parses, the passing rows agree on
one channel (compatible with the running `channel_seen`) and their
sequence numbers (prefixed by the running `prev_seq`) never decrease, the
loop succeeds and emits exactly one event row per passing row, in order. -/
theorem writeTickGo_ok (path sym : String) (oc : Option Int) :
    ∀ (rows : List TickRow) (cs ps : Option Int),
    (∀ r ∈ rows, (pyInt r.ChannelNo).isOk = true) →
    (∀ r ∈ rows, passesTick oc r = true → (pyInt r.ApplSeqNum).isOk = true) →
    (∀ r ∈ rows, passesTick oc r = true → ∀ c, cs = some c → chanOfTick r = c) →
    (∀ r ∈ rows, ∀ r' ∈ rows, passesTick oc r = true → passesTick oc r' = true →
        chanOfTick r = chanOfTick r') →
    nondecB (ps.toList ++ (rows.filter (passesTick oc)).map seqOfTick) = true →
    writeTickGo path sym oc cs ps rows =
      .ok (Option.or cs (((rows.filter (passesTick oc)).head?).map chanOfTick),
           (((rows.filter (passesTick oc)).map seqOfTick).getLast?).or ps,
           (rows.filter (passesTick oc)).map
             (fun r => mkTickEventRow (chanOfTick r) (seqOfTick r) sym r)) := by
  intro rows
  induction rows with
  | nil =>
      intro cs ps _ _ _ _ _
      simp [writeTickGo]
  | cons r rs ih =>
      intro cs ps h1 h2 h3 h4 hm
      obtain ⟨c, hc⟩ : ∃ c, pyInt r.ChannelNo = .ok c := by
        have := h1 r (by simp)
        cases hx : pyInt r.ChannelNo with
        | ok v => exact ⟨v, rfl⟩
        | error e => rw [hx] at this; simp [Except.isOk, Except.toBool] at this
      cases hskip : skipChannel oc c with
      | true =>
          have hpass : passesTick oc r = false := passesTick_eq_false_of_skip hc hskip
          rw [writeTickGo_step_skip hc hskip]
          have := ih cs ps (fun x hx => h1 x (by simp [hx]))
            (fun x hx => h2 x (by simp [hx]))
            (fun x hx => h3 x (by simp [hx]))
            (fun x hx x' hx' => h4 x (by simp [hx]) x' (by simp [hx']))
            (by rwa [List.filter_cons_of_neg (by simp [hpass])] at hm)
          rw [this, List.filter_cons_of_neg (by simp [hpass])]
      | false =>
          have hpass : passesTick oc r = true := passesTick_eq_true hc hskip
          have hcr : chanOfTick r = c := chanOfTick_eq hc
          obtain ⟨s, hs⟩ : ∃ s, pyInt r.ApplSeqNum = .ok s := by
            have := h2 r (by simp) hpass
            cases hx : pyInt r.ApplSeqNum with
            | ok v => exact ⟨v, rfl⟩
            | error e => rw [hx] at this; simp [Except.isOk, Except.toBool] at this
          have hsr : seqOfTick r = s := seqOfTick_eq hs
          have hfil : (r :: rs).filter (passesTick oc) =
              r :: rs.filter (passesTick oc) := List.filter_cons_of_pos (by simp [hpass])
          rw [hfil] at hm
          have hcs' : cs = none ∨ cs = some c := by
            cases cs with
            | none => exact Or.inl rfl
            | some c0 =>
                right
                have := h3 r (by simp) hpass c0 rfl
                rw [hcr] at this
                rw [this]
          have hmono : ∀ p, ps = some p → ¬ s < p := by
            intro p hp
            subst hp
            simp only [Option.toList, List.map_cons] at hm
            have := nondecB_head (by simpa [hsr] using hm)
            omega
          rw [writeTickGo_step_emit hc hskip hcs' hs hmono]
          have hm' : nondecB ((some s : Option Int).toList ++
              (rs.filter (passesTick oc)).map seqOfTick) = true := by
            cases ps with
            | none => simpa [hsr] using hm
            | some p =>
                simp only [Option.toList, List.map_cons, List.singleton_append,
                  List.cons_append] at hm ⊢
                exact nondecB_tail (by simpa [hsr] using hm)
          have := ih (some c) (some s) (fun x hx => h1 x (by simp [hx]))
            (fun x hx => h2 x (by simp [hx]))
            (fun x hx hpx c' hc' => by
              have hxr := h4 x (by simp [hx]) r (by simp) hpx hpass
              rw [hxr, hcr]
              injection hc')
            (fun x hx x' hx' => h4 x (by simp [hx]) x' (by simp [hx']))
            hm'
          rw [this]
          simp only [Except.map]
          rw [hfil]
          simp only [List.map_cons, List.head?_cons, Option.map_some']
          rw [hcr, hsr]
          rcases hcs' with h | h <;> subst h <;>
            rw [← getLast?_or_cons ((rs.filter (passesTick oc)).map seqOfTick) s ps] <;>
            rfl




/-! ## Elimination helpers for the writers -/

theorem passesOrder_elim {oc : Option Int} {r : OrderRow}
    (h : passesOrder oc r = true) :
    ∃ c, pyInt r.ChannelNo = .ok c ∧ skipChannel oc c = false ∧ chanOfOrder r = c := by
  unfold passesOrder at h
  cases hc : pyInt r.ChannelNo with
  | error e => rw [hc] at h; simp at h
  | ok c =>
      rw [hc] at h
      simp only [Bool.not_eq_true'] at h
      exact ⟨c, rfl, h, chanOfOrder_eq hc⟩

theorem passesTick_elim {oc : Option Int} {r : TickRow}
    (h : passesTick oc r = true) :
    ∃ c, pyInt r.ChannelNo = .ok c ∧ skipChannel oc c = false ∧ chanOfTick r = c := by
  unfold passesTick at h
  cases hc : pyInt r.ChannelNo with
  | error e => rw [hc] at h; simp at h
  | ok c =>
      rw [hc] at h
      simp only [Bool.not_eq_true'] at h
      exact ⟨c, rfl, h, chanOfTick_eq hc⟩

/-- Under a single-channel filter every passing row has that channel. -/
theorem passesOrder_some_chan {c : Int} {r : OrderRow}
    (h : passesOrder (some c) r = true) : chanOfOrder r = c := by
  obtain ⟨c', hc', hskip, hco⟩ := passesOrder_elim h
  simp only [skipChannel, bne_eq_false_iff_eq] at hskip
  rw [hco, hskip]

theorem passesTick_some_chan {c : Int} {r : TickRow}
    (h : passesTick (some c) r = true) : chanOfTick r = c := by
  obtain ⟨c', hc', hskip, hco⟩ := passesTick_elim h
  simp only [skipChannel, bne_eq_false_iff_eq] at hskip
  rw [hco, hskip]

theorem pyInt_isOk_elim {s : String} (h : (pyInt s).isOk = true) :
    ∃ v, pyInt s = .ok v := by
  cases hx : pyInt s with
  | ok v => exact ⟨v, rfl⟩
  | error e => rw [hx] at h; simp [Except.isOk, Except.toBool] at h

/-- A failing `int()` always carries the invalid-literal message for the
offending value. -/
theorem pyInt_error_msg {s : String} (h : (pyInt s).isOk = false) :
    pyInt s = .error (invalidLiteralMsg s) := by
  unfold pyInt at h ⊢
  cases hb : (match pyStrip s.data with
    | '+' :: rest => (pyDigits rest).map (fun n => (n : Int))
    | '-' :: rest => (pyDigits rest).map (fun n => -(n : Int))
    | rest => (pyDigits rest).map (fun n => (n : Int))) with
  | some v => simp only [hb] at h ⊢; simp [Except.isOk, Except.toBool] at h
  | none => simp only [hb]

/-- Success shape of the tick loop: the emitted rows are exactly one
`mkTickEventRow` per passing input row, in input order. -/
theorem writeTickGo_shape (path sym : String) (oc : Option Int) :
    ∀ (rows : List TickRow) (cs ps : Option Int) st,
    writeTickGo path sym oc cs ps rows = .ok st →
    st.2.2 = (rows.filter (passesTick oc)).map
      (fun r => mkTickEventRow (chanOfTick r) (seqOfTick r) sym r) := by
  intro rows
  induction rows with
  | nil =>
      intro cs ps st h
      simp only [writeTickGo] at h
      injection h with h
      rw [← h]
      rfl
  | cons r rs ih =>
      intro cs ps st h
      cases hc : pyInt r.ChannelNo with
      | error e => rw [writeTickGo_step_chanErr hc] at h; exact absurd h (by simp)
      | ok c =>
          cases hskip : skipChannel oc c with
          | true =>
              rw [writeTickGo_step_skip hc hskip] at h
              rw [List.filter_cons_of_neg
                (by simp [passesTick_eq_false_of_skip hc hskip])]
              exact ih cs ps st h
          | false =>
              have hcs : cs = none ∨ cs = some c := by
                cases cs with
                | none => exact Or.inl rfl
                | some c0 =>
                    by_cases he : c0 = c
                    · exact Or.inr (by rw [he])
                    · rw [writeTickGo_step_chanMismatch hc hskip he] at h
                      exact absurd h (by simp)
              cases hs : pyInt r.ApplSeqNum with
              | error e =>
                  rw [writeTickGo_step_seqErr hc hskip hcs hs] at h
                  exact absurd h (by simp)
              | ok s =>
                  by_cases hp : ∃ p, ps = some p ∧ s < p
                  · obtain ⟨p, hps, hlt⟩ := hp
                    subst hps
                    rw [writeTickGo_step_monoErr hc hskip hcs hs hlt] at h
                    exact absurd h (by simp)
                  · have hmono : ∀ p, ps = some p → ¬ s < p := fun p hps hlt => hp ⟨p, hps, hlt⟩
                    rw [writeTickGo_step_emit hc hskip hcs hs hmono] at h
                    cases hx : writeTickGo path sym oc (some c) (some s) rs with
                    | error e => rw [hx] at h; exact absurd h (by simp [Except.map])
                    | ok st' =>
                        rw [hx] at h
                        simp only [except_map_ok] at h
                        injection h with h
                        rw [← h]
                        rw [List.filter_cons_of_pos (by simp [passesTick_eq_true hc hskip])]
                        simp only [List.map_cons]
                        rw [chanOfTick_eq hc, seqOfTick_eq hs]
                        exact congrArg _ (ih (some c) (some s) st' hx)


/-! ## Writer wrappers and pipeline error propagation -/

theorem write_order_events_error {path : String} {rows : List OrderRow} {oc : Option Int}
    {e : String}
    (h : writeOrderGo path (symbolOf path) oc none none rows = .error e) :
    write_order_events path rows oc = .error e := by
  simp only [write_order_events, h]
  rfl

theorem write_tick_events_error {path : String} {rows : List TickRow} {oc : Option Int}
    {e : String}
    (h : writeTickGo path (symbolOf path) oc none none rows = .error e) :
    write_tick_events path rows oc = .error e := by
  simp only [write_tick_events, h]
  rfl

/-- An order source that fails normalization fails the whole pipeline run:
no merge happens and no output file is produced. -/
theorem mainModel_order_error {path : String} {rows : List OrderRow} {oc : Option Int}
    {e : String} (he : write_order_events path rows oc = .error e)
    (out outDir : Option String) (mo : Int) (ts : List (String × List TickRow)) :
    mainModel ⟨out, outDir, mo, none, none, oc⟩ [(path, rows)] ts = .error e := by
  simp only [mainModel, buildOrderEventFiles, Option.any_none, Bool.false_eq_true,
    if_neg, he, except_bind_err]
  rfl

theorem mainModel_tick_error {path : String} {rows : List TickRow} {oc : Option Int}
    {e : String} (he : write_tick_events path rows oc = .error e)
    (out outDir : Option String) (mo : Int) :
    mainModel ⟨out, outDir, mo, none, none, oc⟩ [] [(path, rows)] = .error e := by
  simp only [mainModel, buildOrderEventFiles, buildTickEventFiles, Option.any_none,
    Bool.false_eq_true, if_neg, he, except_bind_ok, except_bind_err]
  rfl


/-- A well-formed source (channels parse and agree on the passing rows,
passing sequence numbers parse and never decrease) normalizes without
error. -/
theorem write_order_events_isOk (path : String) (oc : Option Int) (rows : List OrderRow)
    (h1 : ∀ r ∈ rows, (pyInt r.ChannelNo).isOk = true)
    (h2 : ∀ r ∈ rows, passesOrder oc r = true → (pyInt r.ApplSeqNum).isOk = true)
    (h4 : ∀ r ∈ rows, ∀ r' ∈ rows, passesOrder oc r = true → passesOrder oc r' = true →
        chanOfOrder r = chanOfOrder r')
    (hm : nondecB ((rows.filter (passesOrder oc)).map seqOfOrder) = true) :
    (write_order_events path rows oc).isOk = true := by
  have heq := writeOrderGo_ok path (symbolOf path) oc rows none none h1 h2
    (fun r hr hp c hc => by cases hc) h4 (by simpa using hm)
  simp only [write_order_events, heq, except_bind_ok]
  cases hfil : rows.filter (passesOrder oc) with
  | nil => rfl
  | cons f fs => rfl

theorem write_tick_events_isOk (path : String) (oc : Option Int) (rows : List TickRow)
    (h1 : ∀ r ∈ rows, (pyInt r.ChannelNo).isOk = true)
    (h2 : ∀ r ∈ rows, passesTick oc r = true → (pyInt r.ApplSeqNum).isOk = true)
    (h4 : ∀ r ∈ rows, ∀ r' ∈ rows, passesTick oc r = true → passesTick oc r' = true →
        chanOfTick r = chanOfTick r')
    (hm : nondecB ((rows.filter (passesTick oc)).map seqOfTick) = true) :
    (write_tick_events path rows oc).isOk = true := by
  have heq := writeTickGo_ok path (symbolOf path) oc rows none none h1 h2
    (fun r hr hp c hc => by cases hc) h4 (by simpa using hm)
  simp only [write_tick_events, heq, except_bind_ok]
  cases hfil : rows.filter (passesTick oc) with
  | nil => rfl
  | cons f fs => rfl


/-! ## Claim C4 -/

/-- C4: for every tick row that passes the optional channel filter, the
normalizer maps its `ExecType` field to the event kind as `"F" ↦ TRADE`,
`"4" ↦ CANCEL`, anything else `↦ TICK`; the emitted event row of every
passing tick row carries that kind (streaming implementation), and the
Polars implementation's `when/then/otherwise` expression computes the same
mapping. -/
theorem c4_exec_type_mapping :
    (∀ s, polarsTickEvent s = execTypeKind s) ∧
    (execTypeKind "F" = "TRADE" ∧ execTypeKind "4" = "CANCEL" ∧
      ∀ s, s ≠ "F" → s ≠ "4" → execTypeKind s = "TICK") ∧
    (∀ ch seq sym (r : TickRow),
      (mkTickEventRow ch seq sym r).get? 2 = some (execTypeKind r.ExecType)) ∧
    (∀ (path : String) (rows : List TickRow) (oc : Option Int) (ch : Int)
        (out : List (List String)),
      write_tick_events path rows oc = .ok (some (ch, out)) →
      out = (rows.filter (passesTick oc)).map
        (fun r => mkTickEventRow (chanOfTick r) (seqOfTick r) (symbolOf path) r)) := by
  refine ⟨fun s => rfl, ⟨rfl, rfl, fun s h4 hF => ?_⟩, fun ch seq sym r => rfl, ?_⟩
  · simp [execTypeKind, h4, hF]
  · intro path rows oc ch out h
    unfold write_tick_events at h
    cases hx : writeTickGo path (symbolOf path) oc none none rows with
    | error e =>
        rw [hx, except_bindM_err] at h
        exact absurd h (by simp)
    | ok st =>
        rcases st with ⟨cs', ps', o⟩
        rw [hx, except_bindM_ok] at h
        dsimp only at h
        have hsh := writeTickGo_shape path (symbolOf path) oc rows none none (cs', ps', o) hx
        cases ho : o with
        | nil => rw [ho] at h; exact absurd h (by simp)
        | cons a as =>
            rw [ho] at h
            cases hcs : cs' with
            | none => rw [hcs] at h; exact absurd h (by simp)
            | some c =>
                rw [hcs] at h
                simp only [Option.map_some'] at h
                have h2 : (c, a :: as) = (ch, out) := by
                  injection h with h'
                  injection h' with h''
                have hout : out = a :: as := (congrArg Prod.snd h2).symm
                rw [hout, ← ho]
                exact hsh


/-- Witness for C4: the mapping evaluated on a concrete row and code. -/
theorem c4_exec_type_mapping_witness :
    execTypeKind "X" = "TICK" ∧
    ([["1", "1", "TRADE", "000002", "", "5", "6", "", "p", "q", "a", "", "F", "t", "s", "tick"]] =
      (([⟨"1", "1", "F", "5", "6", "p", "q", "a", "t", "s"⟩] : List TickRow).filter
          (passesTick none)).map
        (fun r => mkTickEventRow (chanOfTick r) (seqOfTick r) (symbolOf "d/000002.csv") r)) :=
  ⟨c4_exec_type_mapping.2.1.2.2 "X" (by decide) (by decide),
   c4_exec_type_mapping.2.2.2 "d/000002.csv"
     [⟨"1", "1", "F", "5", "6", "p", "q", "a", "t", "s"⟩] none 1
     [["1", "1", "TRADE", "000002", "", "5", "6", "", "p", "q", "a", "", "F", "t", "s", "tick"]]
     (by rfl)⟩


/-- A decreasing sequence number at the first offending passing row (all
earlier rows being valid) fails `write_order_events` with the monotonicity
message naming the source and both sequence values. -/
theorem write_order_events_monoError (path : String) (oc : Option Int)
    (front : List OrderRow) (bad : OrderRow) (rest : List OrderRow) (p : Int)
    (h1 : ∀ r ∈ front, (pyInt r.ChannelNo).isOk = true)
    (h2 : ∀ r ∈ front, passesOrder oc r = true → (pyInt r.ApplSeqNum).isOk = true)
    (h4 : ∀ r ∈ front, ∀ r' ∈ front, passesOrder oc r = true → passesOrder oc r' = true →
        chanOfOrder r = chanOfOrder r')
    (hm : nondecB ((front.filter (passesOrder oc)).map seqOfOrder) = true)
    (hpb : passesOrder oc bad = true)
    (hcb : ∀ r ∈ front, passesOrder oc r = true → chanOfOrder bad = chanOfOrder r)
    (hsb : (pyInt bad.ApplSeqNum).isOk = true)
    (hlast : ((front.filter (passesOrder oc)).map seqOfOrder).getLast? = some p)
    (hlt : seqOfOrder bad < p) :
    write_order_events path (front ++ bad :: rest) oc =
      .error (orderNotMonotonicMsg path (seqOfOrder bad) p) := by
  have heq := writeOrderGo_ok path (symbolOf path) oc front none none h1 h2
    (fun r hr hp c hc => by cases hc) h4 (by simpa using hm)
  cases hfil : front.filter (passesOrder oc) with
  | nil => rw [hfil] at hlast; simp at hlast
  | cons f0 fr =>
      have hf0 := List.mem_filter.mp (hfil ▸ List.mem_cons_self f0 fr)
      obtain ⟨cb, hcbeq, hskipb, hchb⟩ := passesOrder_elim hpb
      obtain ⟨sb, hsbeq⟩ := pyInt_isOk_elim hsb
      have hsb' : seqOfOrder bad = sb := seqOfOrder_eq hsbeq
      have hchcons : chanOfOrder f0 = cb := by
        rw [← hchb]
        exact (hcb f0 hf0.1 hf0.2).symm
      rw [hfil] at heq hlast
      rw [hlast] at heq
      have hor : ((some p : Option Int)).or none = some p := rfl
      simp only [List.head?_cons, Option.map_some', Option.none_or, hor] at heq
      have hstep : writeOrderGo path (symbolOf path) oc (some (chanOfOrder f0)) (some p)
          (bad :: rest) = .error (orderNotMonotonicMsg path sb p) := by
        rw [hchcons]
        exact writeOrderGo_step_monoErr hcbeq hskipb (Or.inr rfl) hsbeq (by omega)
      apply write_order_events_error
      rw [writeOrderGo_append path (symbolOf path) oc front (bad :: rest) none none, heq,
        except_bind_ok]
      dsimp only
      rw [hstep, hsb']
      rfl

/-- A decreasing sequence number at the first offending passing row (all
earlier rows being valid) fails `write_tick_events` with the monotonicity
message naming the source and both sequence values. -/
theorem write_tick_events_monoError (path : String) (oc : Option Int)
    (front : List TickRow) (bad : TickRow) (rest : List TickRow) (p : Int)
    (h1 : ∀ r ∈ front, (pyInt r.ChannelNo).isOk = true)
    (h2 : ∀ r ∈ front, passesTick oc r = true → (pyInt r.ApplSeqNum).isOk = true)
    (h4 : ∀ r ∈ front, ∀ r' ∈ front, passesTick oc r = true → passesTick oc r' = true →
        chanOfTick r = chanOfTick r')
    (hm : nondecB ((front.filter (passesTick oc)).map seqOfTick) = true)
    (hpb : passesTick oc bad = true)
    (hcb : ∀ r ∈ front, passesTick oc r = true → chanOfTick bad = chanOfTick r)
    (hsb : (pyInt bad.ApplSeqNum).isOk = true)
    (hlast : ((front.filter (passesTick oc)).map seqOfTick).getLast? = some p)
    (hlt : seqOfTick bad < p) :
    write_tick_events path (front ++ bad :: rest) oc =
      .error (tickNotMonotonicMsg path (seqOfTick bad) p) := by
  have heq := writeTickGo_ok path (symbolOf path) oc front none none h1 h2
    (fun r hr hp c hc => by cases hc) h4 (by simpa using hm)
  cases hfil : front.filter (passesTick oc) with
  | nil => rw [hfil] at hlast; simp at hlast
  | cons f0 fr =>
      have hf0 := List.mem_filter.mp (hfil ▸ List.mem_cons_self f0 fr)
      obtain ⟨cb, hcbeq, hskipb, hchb⟩ := passesTick_elim hpb
      obtain ⟨sb, hsbeq⟩ := pyInt_isOk_elim hsb
      have hsb' : seqOfTick bad = sb := seqOfTick_eq hsbeq
      have hchcons : chanOfTick f0 = cb := by
        rw [← hchb]
        exact (hcb f0 hf0.1 hf0.2).symm
      rw [hfil] at heq hlast
      rw [hlast] at heq
      have hor : ((some p : Option Int)).or none = some p := rfl
      simp only [List.head?_cons, Option.map_some', Option.none_or, hor] at heq
      have hstep : writeTickGo path (symbolOf path) oc (some (chanOfTick f0)) (some p)
          (bad :: rest) = .error (tickNotMonotonicMsg path sb p) := by
        rw [hchcons]
        exact writeTickGo_step_monoErr hcbeq hskipb (Or.inr rfl) hsbeq (by omega)
      apply write_tick_events_error
      rw [writeTickGo_append path (symbolOf path) oc front (bad :: rest) none none, heq,
        except_bind_ok]
      dsimp only
      rw [hstep, hsb']
      rfl


/-! ## Claim C5 -/

/-- C5: a row (passing the optional channel filter) whose sequence number is
strictly below the previous passing row's fails normalization with the
monotonicity error naming the source and both sequence values, and the
pipeline run over that source produces no merged output; rows whose
sequence merely equals the previous one never cause a failure.  Both
writers behave this way. -/
theorem c5_monotonicity (path : String) (oc : Option Int) :
    (∀ (front : List OrderRow) (bad : OrderRow) (rest : List OrderRow) (p : Int),
      (∀ r ∈ front, (pyInt r.ChannelNo).isOk = true) →
      (∀ r ∈ front, passesOrder oc r = true → (pyInt r.ApplSeqNum).isOk = true) →
      (∀ r ∈ front, ∀ r' ∈ front, passesOrder oc r = true → passesOrder oc r' = true →
          chanOfOrder r = chanOfOrder r') →
      nondecB ((front.filter (passesOrder oc)).map seqOfOrder) = true →
      passesOrder oc bad = true →
      (∀ r ∈ front, passesOrder oc r = true → chanOfOrder bad = chanOfOrder r) →
      (pyInt bad.ApplSeqNum).isOk = true →
      ((front.filter (passesOrder oc)).map seqOfOrder).getLast? = some p →
      seqOfOrder bad < p →
      write_order_events path (front ++ bad :: rest) oc =
          .error (orderNotMonotonicMsg path (seqOfOrder bad) p) ∧
        ∀ (out outDir : Option String) (mo : Int) (ts : List (String × List TickRow)),
          mainModel ⟨out, outDir, mo, none, none, oc⟩ [(path, front ++ bad :: rest)] ts =
            .error (orderNotMonotonicMsg path (seqOfOrder bad) p)) ∧
    (∀ (front : List TickRow) (bad : TickRow) (rest : List TickRow) (p : Int),
      (∀ r ∈ front, (pyInt r.ChannelNo).isOk = true) →
      (∀ r ∈ front, passesTick oc r = true → (pyInt r.ApplSeqNum).isOk = true) →
      (∀ r ∈ front, ∀ r' ∈ front, passesTick oc r = true → passesTick oc r' = true →
          chanOfTick r = chanOfTick r') →
      nondecB ((front.filter (passesTick oc)).map seqOfTick) = true →
      passesTick oc bad = true →
      (∀ r ∈ front, passesTick oc r = true → chanOfTick bad = chanOfTick r) →
      (pyInt bad.ApplSeqNum).isOk = true →
      ((front.filter (passesTick oc)).map seqOfTick).getLast? = some p →
      seqOfTick bad < p →
      write_tick_events path (front ++ bad :: rest) oc =
          .error (tickNotMonotonicMsg path (seqOfTick bad) p) ∧
        ∀ (out outDir : Option String) (mo : Int),
          mainModel ⟨out, outDir, mo, none, none, oc⟩ [] [(path, front ++ bad :: rest)] =
            .error (tickNotMonotonicMsg path (seqOfTick bad) p)) ∧
    (∀ rows : List OrderRow,
      (∀ r ∈ rows, (pyInt r.ChannelNo).isOk = true) →
      (∀ r ∈ rows, passesOrder oc r = true → (pyInt r.ApplSeqNum).isOk = true) →
      (∀ r ∈ rows, ∀ r' ∈ rows, passesOrder oc r = true → passesOrder oc r' = true →
          chanOfOrder r = chanOfOrder r') →
      nondecB ((rows.filter (passesOrder oc)).map seqOfOrder) = true →
      (write_order_events path rows oc).isOk = true) ∧
    (∀ rows : List TickRow,
      (∀ r ∈ rows, (pyInt r.ChannelNo).isOk = true) →
      (∀ r ∈ rows, passesTick oc r = true → (pyInt r.ApplSeqNum).isOk = true) →
      (∀ r ∈ rows, ∀ r' ∈ rows, passesTick oc r = true → passesTick oc r' = true →
          chanOfTick r = chanOfTick r') →
      nondecB ((rows.filter (passesTick oc)).map seqOfTick) = true →
      (write_tick_events path rows oc).isOk = true) := by
  refine ⟨?_, ?_, ?_, ?_⟩
  · intro front bad rest p h1 h2 h4 hm hpb hcb hsb hlast hlt
    have he := write_order_events_monoError path oc front bad rest p h1 h2 h4 hm hpb hcb
      hsb hlast hlt
    exact ⟨he, fun out outDir mo ts => mainModel_order_error he out outDir mo ts⟩
  · intro front bad rest p h1 h2 h4 hm hpb hcb hsb hlast hlt
    have he := write_tick_events_monoError path oc front bad rest p h1 h2 h4 hm hpb hcb
      hsb hlast hlt
    exact ⟨he, fun out outDir mo => mainModel_tick_error he out outDir mo⟩
  · exact fun rows h1 h2 h4 hm => write_order_events_isOk path oc rows h1 h2 h4 hm
  · exact fun rows h1 h2 h4 hm => write_tick_events_isOk path oc rows h1 h2 h4 hm


/-- Witness for C5: a concrete source whose second row's sequence drops from
3 to 2 fails with exactly the monotonicity message, the pipeline produces
no output, and a source with a duplicated sequence number succeeds. -/
theorem c5_monotonicity_witness :
    (write_order_events "d/000001.csv"
        ([⟨"1", "3", "1", "10", "100", "2", "t", "s"⟩,
          ⟨"1", "2", "1", "10", "100", "2", "t", "s"⟩] : List OrderRow) none =
      .error (orderNotMonotonicMsg "d/000001.csv" 2 3)) ∧
    (mainModel ⟨some "out.csv", none, 64, none, none, none⟩
        [("d/000001.csv",
          [⟨"1", "3", "1", "10", "100", "2", "t", "s"⟩,
           ⟨"1", "2", "1", "10", "100", "2", "t", "s"⟩])] [] =
      .error (orderNotMonotonicMsg "d/000001.csv" 2 3)) ∧
    ((write_order_events "d/000001.csv"
        ([⟨"1", "1", "1", "10", "100", "2", "t", "s"⟩,
          ⟨"1", "1", "1", "10", "100", "2", "t", "s"⟩] : List OrderRow) none).isOk = true) :=
  have h := (c5_monotonicity "d/000001.csv" none).1
    [⟨"1", "3", "1", "10", "100", "2", "t", "s"⟩]
    ⟨"1", "2", "1", "10", "100", "2", "t", "s"⟩ [] 3
    (by decide) (by decide) (by decide) (by decide) (by decide) (by decide)
    (by decide) (by decide) (by decide)
  ⟨h.1, h.2 (some "out.csv") none 64 [],
    (c5_monotonicity "d/000001.csv" none).2.2.1
      [⟨"1", "1", "1", "10", "100", "2", "t", "s"⟩,
       ⟨"1", "1", "1", "10", "100", "2", "t", "s"⟩]
      (by decide) (by decide) (by decide) (by decide)⟩


/-- A passing row whose channel differs from the resolved channel of the
earlier passing rows fails `write_order_events` with the channel message
naming the source and both channel values. -/
theorem write_order_events_chanError (path : String) (oc : Option Int)
    (front : List OrderRow) (bad : OrderRow) (rest : List OrderRow) (c0 : Int)
    (h1 : ∀ r ∈ front, (pyInt r.ChannelNo).isOk = true)
    (h2 : ∀ r ∈ front, passesOrder oc r = true → (pyInt r.ApplSeqNum).isOk = true)
    (h4 : ∀ r ∈ front, ∀ r' ∈ front, passesOrder oc r = true → passesOrder oc r' = true →
        chanOfOrder r = chanOfOrder r')
    (hm : nondecB ((front.filter (passesOrder oc)).map seqOfOrder) = true)
    (hc0 : ((front.filter (passesOrder oc)).head?).map chanOfOrder = some c0)
    (hpb : passesOrder oc bad = true)
    (hdiff : chanOfOrder bad ≠ c0) :
    write_order_events path (front ++ bad :: rest) oc =
      .error (multipleChannelMsg path c0 (chanOfOrder bad)) := by
  have heq := writeOrderGo_ok path (symbolOf path) oc front none none h1 h2
    (fun r hr hp c hc => by cases hc) h4 (by simpa using hm)
  cases hfil : front.filter (passesOrder oc) with
  | nil => rw [hfil] at hc0; simp at hc0
  | cons f0 fr =>
      rw [hfil] at hc0 heq
      simp only [List.head?_cons, Option.map_some'] at hc0
      injection hc0 with hc0eq
      obtain ⟨cb, hcbeq, hskipb, hchb⟩ := passesOrder_elim hpb
      simp only [List.head?_cons, Option.map_some', Option.none_or] at heq
      have hne : c0 ≠ cb := by
        rw [← hchb]
        exact fun he => hdiff he.symm
      have hstep : writeOrderGo path (symbolOf path) oc (some c0)
          (((f0 :: fr).map seqOfOrder).getLast?.or none) (bad :: rest) =
          .error (multipleChannelMsg path c0 cb) :=
        writeOrderGo_step_chanMismatch hcbeq hskipb hne
      apply write_order_events_error
      rw [writeOrderGo_append path (symbolOf path) oc front (bad :: rest) none none, heq,
        except_bind_ok]
      dsimp only
      rw [hc0eq, hstep, hchb]
      rfl

/-- A passing row whose channel differs from the resolved channel of the
earlier passing rows fails `write_tick_events` with the channel message
naming the source and both channel values. -/
theorem write_tick_events_chanError (path : String) (oc : Option Int)
    (front : List TickRow) (bad : TickRow) (rest : List TickRow) (c0 : Int)
    (h1 : ∀ r ∈ front, (pyInt r.ChannelNo).isOk = true)
    (h2 : ∀ r ∈ front, passesTick oc r = true → (pyInt r.ApplSeqNum).isOk = true)
    (h4 : ∀ r ∈ front, ∀ r' ∈ front, passesTick oc r = true → passesTick oc r' = true →
        chanOfTick r = chanOfTick r')
    (hm : nondecB ((front.filter (passesTick oc)).map seqOfTick) = true)
    (hc0 : ((front.filter (passesTick oc)).head?).map chanOfTick = some c0)
    (hpb : passesTick oc bad = true)
    (hdiff : chanOfTick bad ≠ c0) :
    write_tick_events path (front ++ bad :: rest) oc =
      .error (multipleChannelMsg path c0 (chanOfTick bad)) := by
  have heq := writeTickGo_ok path (symbolOf path) oc front none none h1 h2
    (fun r hr hp c hc => by cases hc) h4 (by simpa using hm)
  cases hfil : front.filter (passesTick oc) with
  | nil => rw [hfil] at hc0; simp at hc0
  | cons f0 fr =>
      rw [hfil] at hc0 heq
      simp only [List.head?_cons, Option.map_some'] at hc0
      injection hc0 with hc0eq
      obtain ⟨cb, hcbeq, hskipb, hchb⟩ := passesTick_elim hpb
      simp only [List.head?_cons, Option.map_some', Option.none_or] at heq
      have hne : c0 ≠ cb := by
        rw [← hchb]
        exact fun he => hdiff he.symm
      have hstep : writeTickGo path (symbolOf path) oc (some c0)
          (((f0 :: fr).map seqOfTick).getLast?.or none) (bad :: rest) =
          .error (multipleChannelMsg path c0 cb) :=
        writeTickGo_step_chanMismatch hcbeq hskipb hne
      apply write_tick_events_error
      rw [writeTickGo_append path (symbolOf path) oc front (bad :: rest) none none, heq,
        except_bind_ok]
      dsimp only
      rw [hc0eq, hstep, hchb]
      rfl


/-! ## Claim C6 -/

/-- C6: a passing row whose channel differs from the channel of the first
passing row of the same source fails normalization with the
channel-consistency error naming the source and both channel values, and
the pipeline run then produces no merged output; rows skipped by the
channel filter never reach this validation — under a single-channel filter
a source spanning several channels still normalizes successfully. -/
theorem c6_channel_consistency (path : String) :
    (∀ (oc : Option Int) (front : List OrderRow) (bad : OrderRow) (rest : List OrderRow)
        (c0 : Int),
      (∀ r ∈ front, (pyInt r.ChannelNo).isOk = true) →
      (∀ r ∈ front, passesOrder oc r = true → (pyInt r.ApplSeqNum).isOk = true) →
      (∀ r ∈ front, ∀ r' ∈ front, passesOrder oc r = true → passesOrder oc r' = true →
          chanOfOrder r = chanOfOrder r') →
      nondecB ((front.filter (passesOrder oc)).map seqOfOrder) = true →
      ((front.filter (passesOrder oc)).head?).map chanOfOrder = some c0 →
      passesOrder oc bad = true →
      chanOfOrder bad ≠ c0 →
      write_order_events path (front ++ bad :: rest) oc =
          .error (multipleChannelMsg path c0 (chanOfOrder bad)) ∧
        ∀ (out outDir : Option String) (mo : Int) (ts : List (String × List TickRow)),
          mainModel ⟨out, outDir, mo, none, none, oc⟩ [(path, front ++ bad :: rest)] ts =
            .error (multipleChannelMsg path c0 (chanOfOrder bad))) ∧
    (∀ (oc : Option Int) (front : List TickRow) (bad : TickRow) (rest : List TickRow)
        (c0 : Int),
      (∀ r ∈ front, (pyInt r.ChannelNo).isOk = true) →
      (∀ r ∈ front, passesTick oc r = true → (pyInt r.ApplSeqNum).isOk = true) →
      (∀ r ∈ front, ∀ r' ∈ front, passesTick oc r = true → passesTick oc r' = true →
          chanOfTick r = chanOfTick r') →
      nondecB ((front.filter (passesTick oc)).map seqOfTick) = true →
      ((front.filter (passesTick oc)).head?).map chanOfTick = some c0 →
      passesTick oc bad = true →
      chanOfTick bad ≠ c0 →
      write_tick_events path (front ++ bad :: rest) oc =
          .error (multipleChannelMsg path c0 (chanOfTick bad)) ∧
        ∀ (out outDir : Option String) (mo : Int),
          mainModel ⟨out, outDir, mo, none, none, oc⟩ [] [(path, front ++ bad :: rest)] =
            .error (multipleChannelMsg path c0 (chanOfTick bad))) ∧
    (∀ (c : Int) (rows : List OrderRow),
      (∀ r ∈ rows, (pyInt r.ChannelNo).isOk = true) →
      (∀ r ∈ rows, passesOrder (some c) r = true → (pyInt r.ApplSeqNum).isOk = true) →
      nondecB ((rows.filter (passesOrder (some c))).map seqOfOrder) = true →
      (write_order_events path rows (some c)).isOk = true) ∧
    (∀ (c : Int) (rows : List TickRow),
      (∀ r ∈ rows, (pyInt r.ChannelNo).isOk = true) →
      (∀ r ∈ rows, passesTick (some c) r = true → (pyInt r.ApplSeqNum).isOk = true) →
      nondecB ((rows.filter (passesTick (some c))).map seqOfTick) = true →
      (write_tick_events path rows (some c)).isOk = true) := by
  refine ⟨?_, ?_, ?_, ?_⟩
  · intro oc front bad rest c0 h1 h2 h4 hm hc0 hpb hdiff
    have he := write_order_events_chanError path oc front bad rest c0 h1 h2 h4 hm hc0 hpb hdiff
    exact ⟨he, fun out outDir mo ts => mainModel_order_error he out outDir mo ts⟩
  · intro oc front bad rest c0 h1 h2 h4 hm hc0 hpb hdiff
    have he := write_tick_events_chanError path oc front bad rest c0 h1 h2 h4 hm hc0 hpb hdiff
    exact ⟨he, fun out outDir mo => mainModel_tick_error he out outDir mo⟩
  · intro c rows h1 h2 hm
    exact write_order_events_isOk path (some c) rows h1 h2
      (fun r hr r' hr' hp hp' => by rw [passesOrder_some_chan hp, passesOrder_some_chan hp'])
      hm
  · intro c rows h1 h2 hm
    exact write_tick_events_isOk path (some c) rows h1 h2
      (fun r hr r' hr' hp hp' => by rw [passesTick_some_chan hp, passesTick_some_chan hp'])
      hm

/-- Witness for C6: a source whose second row switches from channel 1 to
channel 2 fails with exactly the channel message; the same rows under the
filter `--channel 1` succeed because the channel-2 row is skipped. -/
theorem c6_channel_consistency_witness :
    (write_order_events "d/000001.csv"
        ([⟨"1", "1", "1", "10", "100", "2", "t", "s"⟩,
          ⟨"2", "2", "1", "10", "100", "2", "t", "s"⟩] : List OrderRow) none =
      .error (multipleChannelMsg "d/000001.csv" 1 2)) ∧
    (mainModel ⟨some "out.csv", none, 64, none, none, none⟩
        [("d/000001.csv",
          [⟨"1", "1", "1", "10", "100", "2", "t", "s"⟩,
           ⟨"2", "2", "1", "10", "100", "2", "t", "s"⟩])] [] =
      .error (multipleChannelMsg "d/000001.csv" 1 2)) ∧
    ((write_order_events "d/000001.csv"
        ([⟨"1", "1", "1", "10", "100", "2", "t", "s"⟩,
          ⟨"2", "2", "1", "10", "100", "2", "t", "s"⟩] : List OrderRow) (some 1)).isOk = true) :=
  have h := (c6_channel_consistency "d/000001.csv").1 none
    [⟨"1", "1", "1", "10", "100", "2", "t", "s"⟩]
    ⟨"2", "2", "1", "10", "100", "2", "t", "s"⟩ [] 1
    (by decide) (by decide) (by decide) (by decide) (by decide) (by decide) (by decide)
  ⟨h.1, h.2 (some "out.csv") none 64 [],
    (c6_channel_consistency "d/000001.csv").2.2.1 1
      [⟨"1", "1", "1", "10", "100", "2", "t", "s"⟩,
       ⟨"2", "2", "1", "10", "100", "2", "t", "s"⟩]
      (by decide) (by decide) (by decide)⟩


/-! ## Claim C7 (corrected) -/

/-- Counterexample to C7 as stated: a malformed `ChannelNo` makes
normalization fail, but the raised error (`int()`'s `invalid literal`
message) does not identify the source: two different sources produce the
byte-identical message, which mentions neither the symbol nor the path. -/
theorem c7_counterexample :
    (write_order_events "data/000001.csv"
        ([⟨"abc", "1", "1", "10", "100", "2", "t", "s"⟩] : List OrderRow) none =
      .error (invalidLiteralMsg "abc")) ∧
    (write_order_events "data/999999.csv"
        ([⟨"abc", "1", "1", "10", "100", "2", "t", "s"⟩] : List OrderRow) none =
      .error (invalidLiteralMsg "abc")) ∧
    mentions (invalidLiteralMsg "abc") "000001" = false ∧
    mentions (invalidLiteralMsg "abc") "data/000001.csv" = false :=
  ⟨by rfl, by rfl, by decide, by decide⟩

/-- C7 amended: a malformed numeric field on a reached row (a malformed
`ChannelNo` is reached on any next row; a malformed `ApplSeqNum` only on a
row that passes the channel filter and matches the seen channel) fails
normalization with the `invalid literal for int() with base 10` error
identifying the offending value — but not the source. -/
theorem c7_parse_failure (path : String) (oc : Option Int) :
    (∀ (front : List OrderRow) (bad : OrderRow) (rest : List OrderRow),
      (∀ r ∈ front, (pyInt r.ChannelNo).isOk = true) →
      (∀ r ∈ front, passesOrder oc r = true → (pyInt r.ApplSeqNum).isOk = true) →
      (∀ r ∈ front, ∀ r' ∈ front, passesOrder oc r = true → passesOrder oc r' = true →
          chanOfOrder r = chanOfOrder r') →
      nondecB ((front.filter (passesOrder oc)).map seqOfOrder) = true →
      (pyInt bad.ChannelNo).isOk = false →
      write_order_events path (front ++ bad :: rest) oc =
        .error (invalidLiteralMsg bad.ChannelNo)) ∧
    (∀ (front : List TickRow) (bad : TickRow) (rest : List TickRow),
      (∀ r ∈ front, (pyInt r.ChannelNo).isOk = true) →
      (∀ r ∈ front, passesTick oc r = true → (pyInt r.ApplSeqNum).isOk = true) →
      (∀ r ∈ front, ∀ r' ∈ front, passesTick oc r = true → passesTick oc r' = true →
          chanOfTick r = chanOfTick r') →
      nondecB ((front.filter (passesTick oc)).map seqOfTick) = true →
      (pyInt bad.ChannelNo).isOk = false →
      write_tick_events path (front ++ bad :: rest) oc =
        .error (invalidLiteralMsg bad.ChannelNo)) ∧
    (∀ (front : List OrderRow) (bad : OrderRow) (rest : List OrderRow),
      (∀ r ∈ front, (pyInt r.ChannelNo).isOk = true) →
      (∀ r ∈ front, passesOrder oc r = true → (pyInt r.ApplSeqNum).isOk = true) →
      (∀ r ∈ front, ∀ r' ∈ front, passesOrder oc r = true → passesOrder oc r' = true →
          chanOfOrder r = chanOfOrder r') →
      nondecB ((front.filter (passesOrder oc)).map seqOfOrder) = true →
      passesOrder oc bad = true →
      (∀ r ∈ front, passesOrder oc r = true → chanOfOrder bad = chanOfOrder r) →
      (pyInt bad.ApplSeqNum).isOk = false →
      write_order_events path (front ++ bad :: rest) oc =
        .error (invalidLiteralMsg bad.ApplSeqNum)) ∧
    (∀ (front : List TickRow) (bad : TickRow) (rest : List TickRow),
      (∀ r ∈ front, (pyInt r.ChannelNo).isOk = true) →
      (∀ r ∈ front, passesTick oc r = true → (pyInt r.ApplSeqNum).isOk = true) →
      (∀ r ∈ front, ∀ r' ∈ front, passesTick oc r = true → passesTick oc r' = true →
          chanOfTick r = chanOfTick r') →
      nondecB ((front.filter (passesTick oc)).map seqOfTick) = true →
      passesTick oc bad = true →
      (∀ r ∈ front, passesTick oc r = true → chanOfTick bad = chanOfTick r) →
      (pyInt bad.ApplSeqNum).isOk = false →
      write_tick_events path (front ++ bad :: rest) oc =
        .error (invalidLiteralMsg bad.ApplSeqNum)) := by
  refine ⟨?_, ?_, ?_, ?_⟩
  · intro front bad rest h1 h2 h4 hm hbad
    have heq := writeOrderGo_ok path (symbolOf path) oc front none none h1 h2
      (fun r hr hp c hc => by cases hc) h4 (by simpa using hm)
    apply write_order_events_error
    rw [writeOrderGo_append path (symbolOf path) oc front (bad :: rest) none none, heq,
      except_bind_ok]
    dsimp only
    rw [writeOrderGo_step_chanErr (pyInt_error_msg hbad)]
    rfl
  · intro front bad rest h1 h2 h4 hm hbad
    have heq := writeTickGo_ok path (symbolOf path) oc front none none h1 h2
      (fun r hr hp c hc => by cases hc) h4 (by simpa using hm)
    apply write_tick_events_error
    rw [writeTickGo_append path (symbolOf path) oc front (bad :: rest) none none, heq,
      except_bind_ok]
    dsimp only
    rw [writeTickGo_step_chanErr (pyInt_error_msg hbad)]
    rfl
  · intro front bad rest h1 h2 h4 hm hpb hcb hbad
    have heq := writeOrderGo_ok path (symbolOf path) oc front none none h1 h2
      (fun r hr hp c hc => by cases hc) h4 (by simpa using hm)
    obtain ⟨cb, hcbeq, hskipb, hchb⟩ := passesOrder_elim hpb
    have hse := pyInt_error_msg hbad
    apply write_order_events_error
    rw [writeOrderGo_append path (symbolOf path) oc front (bad :: rest) none none, heq,
      except_bind_ok]
    dsimp only
    cases hfil : front.filter (passesOrder oc) with
    | nil =>
        simp only [List.head?_nil, Option.map_none', Option.none_or]
        rw [writeOrderGo_step_seqErr hcbeq hskipb (Or.inl rfl) hse]
        rfl
    | cons f0 fr =>
        have hf0 := List.mem_filter.mp (hfil ▸ List.mem_cons_self f0 fr)
        have hchcons : chanOfOrder f0 = cb := by
          rw [← hchb]; exact (hcb f0 hf0.1 hf0.2).symm
        simp only [List.head?_cons, Option.map_some', Option.none_or]
        rw [hchcons]
        rw [writeOrderGo_step_seqErr hcbeq hskipb (Or.inr rfl) hse]
        rfl
  · intro front bad rest h1 h2 h4 hm hpb hcb hbad
    have heq := writeTickGo_ok path (symbolOf path) oc front none none h1 h2
      (fun r hr hp c hc => by cases hc) h4 (by simpa using hm)
    obtain ⟨cb, hcbeq, hskipb, hchb⟩ := passesTick_elim hpb
    have hse := pyInt_error_msg hbad
    apply write_tick_events_error
    rw [writeTickGo_append path (symbolOf path) oc front (bad :: rest) none none, heq,
      except_bind_ok]
    dsimp only
    cases hfil : front.filter (passesTick oc) with
    | nil =>
        simp only [List.head?_nil, Option.map_none', Option.none_or]
        rw [writeTickGo_step_seqErr hcbeq hskipb (Or.inl rfl) hse]
        rfl
    | cons f0 fr =>
        have hf0 := List.mem_filter.mp (hfil ▸ List.mem_cons_self f0 fr)
        have hchcons : chanOfTick f0 = cb := by
          rw [← hchb]; exact (hcb f0 hf0.1 hf0.2).symm
        simp only [List.head?_cons, Option.map_some', Option.none_or]
        rw [hchcons]
        rw [writeTickGo_step_seqErr hcbeq hskipb (Or.inr rfl) hse]
        rfl

/-- Witness for the amended C7 at a concrete malformed row. -/
theorem c7_parse_failure_witness :
    (write_order_events "data/000001.csv"
        ([⟨"1", "1", "1", "10", "100", "2", "t", "s"⟩,
          ⟨"7x", "2", "1", "10", "100", "2", "t", "s"⟩] : List OrderRow) none =
      .error (invalidLiteralMsg "7x")) ∧
    (write_order_events "data/000001.csv"
        ([⟨"1", "1", "1", "10", "100", "2", "t", "s"⟩,
          ⟨"1", "zz", "1", "10", "100", "2", "t", "s"⟩] : List OrderRow) none =
      .error (invalidLiteralMsg "zz")) :=
  ⟨(c7_parse_failure "data/000001.csv" none).1
      [⟨"1", "1", "1", "10", "100", "2", "t", "s"⟩]
      ⟨"7x", "2", "1", "10", "100", "2", "t", "s"⟩ []
      (by decide) (by decide) (by decide) (by decide) (by decide),
   (c7_parse_failure "data/000001.csv" none).2.2.1
      [⟨"1", "1", "1", "10", "100", "2", "t", "s"⟩]
      ⟨"1", "zz", "1", "10", "100", "2", "t", "s"⟩ []
      (by decide) (by decide) (by decide) (by decide) (by decide) (by decide) (by decide)⟩


/-! ## Claim C8 (corrected) -/

/-- Counterexample to C8 as stated: with an invalid output-mode
configuration (both `--out` and `--out-dir` given) and an order source
carrying a sequence decrease, the run fails with the monotonicity error,
not the configuration error — the sources are read and normalized before
the output-mode check. -/
theorem c8_counterexample :
    (mainModel ⟨some "out.csv", some "odir", 64, none, none, none⟩
        [("d/000001.csv",
          [⟨"1", "3", "1", "10", "100", "2", "t", "s"⟩,
           ⟨"1", "2", "1", "10", "100", "2", "t", "s"⟩])] [] =
      .error (orderNotMonotonicMsg "d/000001.csv" 2 3)) ∧
    orderNotMonotonicMsg "d/000001.csv" 2 3 ≠ bothOutputsMsg ∧
    orderNotMonotonicMsg "d/000001.csv" 2 3 ≠ neitherOutputMsg :=
  ⟨by rfl, by decide, by decide⟩

/-- C8 amended: an invalid output-mode configuration (both output targets,
or neither) does make the run fail with the corresponding configuration
error, but the check runs only after every input source has been read and
normalized (and after the no-event-files check): a failure while
processing sources preempts the configuration error. -/
theorem c8_config_error (cfg : Config) (os : List (String × List OrderRow))
    (ts : List (String × List TickRow)) :
    (∀ op tp,
      buildOrderEventFiles "order_events" cfg.symbolFilter cfg.channel cfg.limitFiles 0 os =
        .ok op →
      buildTickEventFiles "tick_events" cfg.symbolFilter cfg.channel cfg.limitFiles 0 ts =
        .ok tp →
      op ++ tp ≠ [] →
      ((cfg.outDir.isSome && cfg.out.isSome) = true →
          mainModel cfg os ts = .error bothOutputsMsg) ∧
        (cfg.outDir = none → cfg.out = none →
          mainModel cfg os ts = .error neitherOutputMsg)) ∧
    (∀ e,
      buildOrderEventFiles "order_events" cfg.symbolFilter cfg.channel cfg.limitFiles 0 os =
        .error e →
      mainModel cfg os ts = .error e) := by
  constructor
  · intro op tp hop htp hne
    have hemp : (op ++ tp).isEmpty = false := by
      cases h : op ++ tp with
      | nil => exact absurd h hne
      | cons a l => rfl
    constructor
    · intro hboth
      simp only [mainModel, hop, htp, except_bindM_ok, hemp, hboth]
      rfl
    · intro hd ho
      simp only [mainModel, hop, htp, except_bindM_ok, hemp, hd, ho]
      rfl
  · intro e he
    simp only [mainModel, he, except_bindM_err]

/-- Witness for the amended C8: a valid source plus an invalid output-mode
configuration produces exactly the configuration error (both variants). -/
theorem c8_config_error_witness :
    (mainModel ⟨some "out.csv", some "odir", 64, none, none, none⟩
        [("d/000001.csv", [⟨"1", "1", "1", "10", "100", "2", "t", "s"⟩])] [] =
      .error bothOutputsMsg) ∧
    (mainModel ⟨none, none, 64, none, none, none⟩
        [("d/000001.csv", [⟨"1", "1", "1", "10", "100", "2", "t", "s"⟩])] [] =
      .error neitherOutputMsg) :=
  ⟨((c8_config_error ⟨some "out.csv", some "odir", 64, none, none, none⟩
      [("d/000001.csv", [⟨"1", "1", "1", "10", "100", "2", "t", "s"⟩])] []).1
      _ _ (by rfl) (by rfl) (by decide)).1 rfl,
   ((c8_config_error ⟨none, none, 64, none, none, none⟩
      [("d/000001.csv", [⟨"1", "1", "1", "10", "100", "2", "t", "s"⟩])] []).1
      _ _ (by rfl) (by rfl) (by decide)).2 rfl rfl⟩


/-! ## Claim C9: termination of `multi_pass_merge` -/

theorem chunksGo_length_le {α : Type} (n : Nat) (hn : 2 ≤ n) :
    ∀ (fuel : Nat) (xs : List α), xs.length ≤ fuel →
    2 * (chunksGo n fuel xs).length ≤ xs.length + 1 := by
  intro fuel
  induction fuel with
  | zero =>
      intro xs hle
      cases xs with
      | nil => simp [chunksGo]
      | cons a l => simp at hle
  | succ f ih =>
      intro xs hle
      cases xs with
      | nil => simp [chunksGo]
      | cons a l =>
          simp only [chunksGo, List.length_cons]
          have hdrop : ((a :: l).drop n).length = (a :: l).length - n :=
            List.length_drop n (a :: l)
          have hlen : (a :: l).length = l.length + 1 := rfl
          have hrec := ih ((a :: l).drop n) (by rw [hdrop, hlen]; simp at hle ⊢; omega)
          rw [hdrop, hlen] at hrec
          omega

/-- With a handle budget of at least two, chunking more than one path gives
strictly fewer batches than paths. -/
theorem chunks_length_lt {α : Type} (n : Nat) (xs : List α) (hn : 2 ≤ n)
    (hx : 1 < xs.length) : (chunks n xs).length < xs.length := by
  unfold chunks
  rw [if_neg (by omega)]
  have := chunksGo_length_le n hn xs.length xs (le_refl _)
  omega

/-- A merge round emits at most one file per batch. -/
theorem mergeRound_length (out : String) (mo rid : Nat) :
    ∀ (batches : List (List EventFile)) (j : Nat) (next : List EventFile),
    mergeRound out mo rid j batches = .ok next → next.length ≤ batches.length := by
  intro batches
  induction batches with
  | nil =>
      intro j next h
      simp only [mergeRound] at h
      injection h with h
      rw [← h]
      simp
  | cons b rest ih =>
      intro j next h
      match b, h with
      | [], h =>
          simp only [mergeRound, merge_batch, initFiles, except_bindM_ok] at h
          cases hrec : mergeRound out mo rid (j + 1) rest with
          | error e => rw [hrec, except_bindM_err] at h; exact absurd h (by simp)
          | ok others =>
              rw [hrec, except_bindM_ok] at h
              injection h with h
              rw [← h]
              have := ih (j + 1) others hrec
              simp only [List.length_cons]
              omega
      | [p], h =>
          simp only [mergeRound] at h
          cases hrec : mergeRound out mo rid (j + 1) rest with
          | error e => rw [hrec, except_bindM_err] at h; exact absurd h (by simp)
          | ok others =>
              rw [hrec, except_bindM_ok] at h
              injection h with h
              rw [← h]
              have := ih (j + 1) others hrec
              simp only [List.length_cons]
              omega
      | p :: q :: bs, h =>
          simp only [mergeRound] at h
          cases hm : merge_batch (p :: q :: bs) (mergeTmpPath out rid j) with
          | error e => rw [hm, except_bindM_err] at h; exact absurd h (by simp)
          | ok m =>
              rw [hm, except_bindM_ok] at h
              cases hrec : mergeRound out mo rid (j + 1) rest with
              | error e => rw [hrec, except_bindM_err] at h; exact absurd h (by simp)
              | ok others =>
                  rw [hrec, except_bindM_ok] at h
                  have hlen := ih (j + 1) others hrec
                  cases m with
                  | none =>
                      injection h with h
                      rw [← h]
                      simp only [List.length_cons]
                      omega
                  | some f =>
                      injection h with h
                      rw [← h]
                      simp only [List.length_cons]
                      omega

/-- The terminal case of the `while` loop: at most one path left means the
single path (if any) is moved to the output location. -/
theorem multiPassGo_base (out : String) (mo fuel rid : Nat) (paths : List EventFile)
    (h : paths.length ≤ 1) :
    multiPassGo out mo fuel rid paths =
      .ok (paths.head?.map (fun f => { f with path := out })) := by
  cases fuel with
  | zero => simp only [multiPassGo, if_pos h]
  | succ f => simp only [multiPassGo, if_pos h]

/-- One loop iteration when more than one path remains. -/
theorem multiPassGo_step (out : String) (mo fuel rid : Nat) (paths : List EventFile)
    (h : ¬ paths.length ≤ 1) :
    multiPassGo out mo (fuel + 1) rid paths =
      (mergeRound out mo rid 0 (chunks mo paths)).bind
        (fun next => multiPassGo out mo fuel (rid + 1) next) := by
  simp only [multiPassGo, if_neg h]
  cases mergeRound out mo rid 0 (chunks mo paths) with
  | error e => rfl
  | ok next => rfl

/-- The number of rounds needed never exceeds the number of paths: any fuel
of at least `paths.length` gives the same result as fuel `paths.length`
(so the `while` loop of `multi_pass_merge` terminates for `max_open ≥ 2`). -/
theorem multiPassGo_fuel (out : String) (mo : Nat) (hmo : 2 ≤ mo) :
    ∀ (fuel : Nat) (paths : List EventFile) (rid : Nat),
    paths.length ≤ fuel →
    multiPassGo out mo fuel rid paths = multiPassGo out mo paths.length rid paths := by
  intro fuel
  induction fuel using Nat.strong_induction_on with
  | _ fuel ih =>
      intro paths rid hle
      by_cases hlen : paths.length ≤ 1
      · rw [multiPassGo_base out mo fuel rid paths hlen,
          multiPassGo_base out mo paths.length rid paths hlen]
      · obtain ⟨f, rfl⟩ : ∃ f, fuel = f + 1 := ⟨fuel - 1, by omega⟩
        obtain ⟨l, hl⟩ : ∃ l, paths.length = l + 1 := ⟨paths.length - 1, by omega⟩
        rw [multiPassGo_step out mo f rid paths hlen, hl,
          multiPassGo_step out mo l rid paths hlen]
        cases hr : mergeRound out mo rid 0 (chunks mo paths) with
        | error e => rfl
        | ok next =>
            simp only [except_bind_ok]
            have hnext : next.length < paths.length := by
              have h1 := mergeRound_length out mo rid (chunks mo paths) 0 next hr
              have h2' := chunks_length_lt mo paths hmo (by omega)
              omega
            rw [ih f (by omega) next (rid + 1) (by omega),
              ih l (by omega) next (rid + 1) (by omega)]


/-- C9: `multi_pass_merge` terminates for any handle budget of at least 2:
every round over more than one path yields strictly fewer paths, so fuel
equal to the initial path count is enough (larger fuel changes nothing); a
single-entry list is moved to the output with no merge performed, and an
empty list produces no output. -/
theorem c9_termination :
    (∀ (out : String) (mo rid : Nat) (paths next : List EventFile),
      2 ≤ mo → 1 < paths.length →
      mergeRound out mo rid 0 (chunks mo paths) = .ok next →
      next.length < paths.length) ∧
    (∀ (out : String) (mo : Nat), 2 ≤ mo →
      ∀ (fuel : Nat) (paths : List EventFile) (rid : Nat), paths.length ≤ fuel →
      multiPassGo out mo fuel rid paths = multiPassGo out mo paths.length rid paths) ∧
    (∀ (f : EventFile) (out : String) (mo : Nat),
      multi_pass_merge [f] out mo = .ok (some ⟨out, f.header, f.data⟩)) ∧
    (∀ (out : String) (mo : Nat), multi_pass_merge [] out mo = .ok none) := by
  refine ⟨?_, ?_, ?_, ?_⟩
  · intro out mo rid paths next hmo hlen hr
    have h1 := mergeRound_length out mo rid (chunks mo paths) 0 next hr
    have h2 := chunks_length_lt mo paths hmo hlen
    omega
  · exact fun out mo hmo => multiPassGo_fuel out mo hmo
  · intro f out mo
    exact multiPassGo_base out mo 1 0 [f] (by simp)
  · intro out mo
    exact multiPassGo_base out mo 0 0 [] (by simp)

/-- Witness for C9: three concrete paths with budget 2 shrink to two after
one round; the loop result is fuel-independent; a singleton is moved. -/
theorem c9_termination_witness :
    ([⟨"o.merge_0_0.tmp", "H", ["1,1", "1,2"]⟩, ⟨"c", "H", ["2,1"]⟩] : List EventFile).length <
        ([⟨"a", "H", ["1,1"]⟩, ⟨"b", "H", ["1,2"]⟩, ⟨"c", "H", ["2,1"]⟩] :
          List EventFile).length ∧
    multiPassGo "o" 2 5 0 [⟨"a", "H", ["1,1"]⟩, ⟨"b", "H", ["1,2"]⟩, ⟨"c", "H", ["2,1"]⟩] =
      multiPassGo "o" 2 3 0 [⟨"a", "H", ["1,1"]⟩, ⟨"b", "H", ["1,2"]⟩, ⟨"c", "H", ["2,1"]⟩] ∧
    multi_pass_merge [⟨"a", "H", ["1,1"]⟩] "o" 2 = .ok (some ⟨"o", "H", ["1,1"]⟩) :=
  ⟨c9_termination.1 "o" 2 0
      [⟨"a", "H", ["1,1"]⟩, ⟨"b", "H", ["1,2"]⟩, ⟨"c", "H", ["2,1"]⟩]
      [⟨"o.merge_0_0.tmp", "H", ["1,1", "1,2"]⟩, ⟨"c", "H", ["2,1"]⟩]
      (by decide) (by decide) (by rfl),
   c9_termination.2.1 "o" 2 (by decide) 5
      [⟨"a", "H", ["1,1"]⟩, ⟨"b", "H", ["1,2"]⟩, ⟨"c", "H", ["2,1"]⟩] 0 (by decide),
   c9_termination.2.2.1 ⟨"a", "H", ["1,1"]⟩ "o" 2⟩


/-! ## Claim C10 (corrected) -/

/-- Counterexample to C10 as stated: the second file's header differs from
the first's, yet `merge_batch` fails with the `Invalid line` parse error of
the first file's malformed first data line — not with a header-mismatch
error naming the offending file (the opening loop reads each file's first
data line before looking at the next file's header). -/
theorem c10_counterexample :
    ((⟨"b.csv", "G", ["1,2"]⟩ : EventFile).header ≠
        (⟨"a.csv", "H", ["zz"]⟩ : EventFile).header) ∧
    merge_batch [⟨"a.csv", "H", ["zz"]⟩, ⟨"b.csv", "G", ["1,2"]⟩] "out" =
      .error (invalidLineMsg "zz") ∧
    invalidLineMsg "zz" ≠ headerMismatchMsg "b.csv" ∧
    mentions (invalidLineMsg "zz") "b.csv" = false :=
  ⟨by decide, by rfl, by decide, by decide⟩

theorem initFiles_mismatch_of_ne {h0 : String} (bad : EventFile) (rest : List EventFile)
    (hne : bad.header ≠ h0) :
    ∀ (mid : List EventFile),
    (∀ f ∈ mid, f.header = h0 ∧ (advance f.data).isOk = true) →
    initFiles (some h0) (mid ++ bad :: rest) = .error (headerMismatchMsg bad.path) := by
  intro mid
  induction mid with
  | nil =>
      intro _
      simp only [List.nil_append, initFiles]
      rw [if_neg hne]
      rfl
  | cons f mid ih =>
      intro hall
      have hf := hall f (by simp)
      obtain ⟨c, hc⟩ : ∃ c, advance f.data = .ok c := by
        cases hx : advance f.data with
        | ok c => exact ⟨c, rfl⟩
        | error e => rw [hx] at hf; simp [Except.isOk, Except.toBool] at hf
      simp only [List.cons_append, initFiles, List.append_eq]
      rw [if_pos hf.1]
      rw [except_bindM_ok, hc, except_bindM_ok,
        ih (fun g hg => hall g (by simp [hg])), except_bindM_err]

theorem initFiles_isError_of_mismatch {h0 : String} :
    ∀ (fs : List EventFile), (∃ f ∈ fs, f.header ≠ h0) →
    (initFiles (some h0) fs).isOk = false := by
  intro fs
  induction fs with
  | nil => intro h; simp at h
  | cons f rest ih =>
      intro h
      by_cases hf : f.header = h0
      · simp only [initFiles]
        rw [if_pos hf, except_bindM_ok]
        cases ha : advance f.data with
        | error e => rfl
        | ok c =>
            rw [except_bindM_ok]
            have hrest : ∃ g ∈ rest, g.header ≠ h0 := by
              obtain ⟨g, hg, hgne⟩ := h
              rcases List.mem_cons.mp hg with rfl | hg'
              · exact absurd hf hgne
              · exact ⟨g, hg', hgne⟩
            have := ih hrest
            cases hi : initFiles (some h0) rest with
            | error e => rfl
            | ok st => rw [hi] at this; simp [Except.isOk, Except.toBool] at this
      · simp only [initFiles]
        rw [if_neg hf]
        rfl

/-- C10 amended: if some input file's header differs from the first input
file's header, `merge_batch` fails and produces no merged output; the
failure is the header-mismatch error naming the first offending file
provided every earlier file's first data line is readable (an earlier
file's `parse_key` failure preempts the header check, as the
counterexample shows). -/
theorem c10_header_mismatch (output_path : String) :
    (∀ (f0 : EventFile) (fs : List EventFile),
      (∃ f ∈ fs, f.header ≠ f0.header) →
      (merge_batch (f0 :: fs) output_path).isOk = false) ∧
    (∀ (f0 : EventFile) (mid : List EventFile) (bad : EventFile) (rest : List EventFile),
      (advance f0.data).isOk = true →
      (∀ f ∈ mid, f.header = f0.header ∧ (advance f.data).isOk = true) →
      bad.header ≠ f0.header →
      merge_batch (f0 :: (mid ++ bad :: rest)) output_path =
        .error (headerMismatchMsg bad.path)) := by
  constructor
  · intro f0 fs hex
    simp only [merge_batch, initFiles, except_bindM_ok]
    cases ha : advance f0.data with
    | error e => rfl
    | ok c =>
        rw [except_bindM_ok]
        have := initFiles_isError_of_mismatch fs hex
        cases hi : initFiles (some f0.header) fs with
        | error e => rfl
        | ok st => rw [hi] at this; simp [Except.isOk, Except.toBool] at this
  · intro f0 mid bad rest h0 hall hne
    obtain ⟨c, hc⟩ : ∃ c, advance f0.data = .ok c := by
      cases hx : advance f0.data with
      | ok c => exact ⟨c, rfl⟩
      | error e => rw [hx] at h0; simp [Except.isOk, Except.toBool] at h0
    simp only [merge_batch, initFiles, except_bindM_ok]
    rw [hc, except_bindM_ok, initFiles_mismatch_of_ne bad rest hne mid hall,
      except_bindM_err]
    rfl

/-- Witness for the amended C10 at concrete files. -/
theorem c10_header_mismatch_witness :
    ((merge_batch [⟨"a.csv", "H", ["1,1"]⟩, ⟨"b.csv", "G", ["1,2"]⟩] "out").isOk = false) ∧
    (merge_batch [⟨"a.csv", "H", ["1,1"]⟩, ⟨"b.csv", "G", ["1,2"]⟩] "out" =
      .error (headerMismatchMsg "b.csv")) :=
  ⟨(c10_header_mismatch "out").1 ⟨"a.csv", "H", ["1,1"]⟩ [⟨"b.csv", "G", ["1,2"]⟩]
      ⟨⟨"b.csv", "G", ["1,2"]⟩, by decide, by decide⟩,
   (c10_header_mismatch "out").2 ⟨"a.csv", "H", ["1,1"]⟩ [] ⟨"b.csv", "G", ["1,2"]⟩ []
      (by rfl) (by simp) (by decide)⟩


/-! ## `selectMin` (heap minimum) -/

theorem not_keyLT {a b : Key} (h : keyLT a b = false) : keyLE b a = true := by
  simpa [keyLT] using h

theorem selectMin_eq_none : ∀ {cs : List Cursor}, selectMin cs = none →
    ∀ c ∈ cs, c = none := by
  intro cs
  induction cs with
  | nil => intro _ c hc; simp at hc
  | cons c0 rest ih =>
      intro h c hc
      cases c0 with
      | none =>
          simp only [selectMin] at h
          have hrest : selectMin rest = none := by
            cases hx : selectMin rest with
            | none => rfl
            | some v => rw [hx] at h; simp at h
          rcases List.mem_cons.mp hc with rfl | hc'
          · rfl
          · exact ih hrest c hc'
      | some v =>
          obtain ⟨k, l, r⟩ := v
          simp only [selectMin] at h
          cases hx : selectMin rest with
          | none => rw [hx] at h; exact absurd h (by simp)
          | some w =>
              obtain ⟨j, k', l', r'⟩ := w
              simp only [hx] at h
              split at h <;> exact Option.noConfusion h

theorem selectMin_mem : ∀ {cs : List Cursor} {i : Nat} {k : Key} {l : String}
    {r : List String}, selectMin cs = some (i, k, l, r) →
    cs[i]? = some (some (k, l, r)) := by
  intro cs
  induction cs with
  | nil => intro i k l r h; exact Option.noConfusion h
  | cons c0 rest ih =>
      intro i k l r h
      cases c0 with
      | none =>
          simp only [selectMin] at h
          cases hx : selectMin rest with
          | none => rw [hx] at h; simp at h
          | some v =>
              rw [hx] at h
              simp only [Option.map_some'] at h
              injection h with h
              obtain ⟨j, k0, l0, r0⟩ := v
              have hi : i = j + 1 := (congrArg Prod.fst h).symm
              have hv : (k, l, r) = (k0, l0, r0) := (congrArg Prod.snd h).symm
              subst hi
              rw [List.getElem?_cons_succ]
              rw [hv]
              exact ih hx
      | some v =>
          obtain ⟨k0, l0, r0⟩ := v
          simp only [selectMin] at h
          cases hx : selectMin rest with
          | none =>
              rw [hx] at h
              injection h with h
              have hi : i = 0 := (congrArg Prod.fst h).symm
              have hv : (k, l, r) = (k0, l0, r0) := (congrArg Prod.snd h).symm
              subst hi
              rw [List.getElem?_cons_zero, hv]
          | some w =>
              obtain ⟨j, k1, l1, r1⟩ := w
              simp only [hx] at h
              by_cases hlt : keyLT k1 k0 = true
              · rw [if_pos hlt] at h
                injection h with h
                have hi : i = j + 1 := (congrArg Prod.fst h).symm
                have hv : (k, l, r) = (k1, l1, r1) := (congrArg Prod.snd h).symm
                subst hi
                rw [List.getElem?_cons_succ, hv]
                exact ih hx
              · rw [if_neg hlt] at h
                injection h with h
                have hi : i = 0 := (congrArg Prod.fst h).symm
                have hv : (k, l, r) = (k0, l0, r0) := (congrArg Prod.snd h).symm
                subst hi
                rw [List.getElem?_cons_zero, hv]

theorem selectMin_min : ∀ {cs : List Cursor} {i : Nat} {k : Key} {l : String}
    {r : List String}, selectMin cs = some (i, k, l, r) →
    ∀ (j : Nat) (k' : Key) (l' : String) (r' : List String),
      cs[j]? = some (some (k', l', r')) → keyLE k k' = true := by
  intro cs
  induction cs with
  | nil => intro i k l r h; exact Option.noConfusion h
  | cons c0 rest ih =>
      intro i k l r h j k' l' r' hj
      cases c0 with
      | none =>
          simp only [selectMin] at h
          cases hx : selectMin rest with
          | none => rw [hx] at h; simp at h
          | some v =>
              rw [hx] at h
              simp only [Option.map_some'] at h
              injection h with h
              obtain ⟨j0, k0, l0, r0⟩ := v
              have hv : (k, l, r) = (k0, l0, r0) := (congrArg Prod.snd h).symm
              have hk : k = k0 := congrArg Prod.fst hv
              cases j with
              | zero => rw [List.getElem?_cons_zero] at hj; simp at hj
              | succ j =>
                  rw [List.getElem?_cons_succ] at hj
                  rw [hk]
                  exact ih hx j k' l' r' hj
      | some v =>
          obtain ⟨k0, l0, r0⟩ := v
          simp only [selectMin] at h
          cases hx : selectMin rest with
          | none =>
              rw [hx] at h
              injection h with h
              have hv : (k, l, r) = (k0, l0, r0) := (congrArg Prod.snd h).symm
              have hk : k = k0 := congrArg Prod.fst hv
              cases j with
              | zero =>
                  rw [List.getElem?_cons_zero] at hj
                  injection hj with hj
                  injection hj with hj
                  have : k' = k0 := congrArg Prod.fst hj.symm
                  rw [hk, this]
                  exact keyLE_refl k0
              | succ j =>
                  rw [List.getElem?_cons_succ] at hj
                  have hmem : (some (k', l', r') : Cursor) ∈ rest :=
                    List.mem_iff_getElem?.mpr ⟨j, hj⟩
                  have := selectMin_eq_none hx _ hmem
                  exact absurd this (by simp)
          | some w =>
              obtain ⟨j0, k1, l1, r1⟩ := w
              simp only [hx] at h
              by_cases hlt : keyLT k1 k0 = true
              · rw [if_pos hlt] at h
                injection h with h
                have hv : (k, l, r) = (k1, l1, r1) := (congrArg Prod.snd h).symm
                have hk : k = k1 := congrArg Prod.fst hv
                cases j with
                | zero =>
                    rw [List.getElem?_cons_zero] at hj
                    injection hj with hj
                    injection hj with hj
                    have hk' : k' = k0 := congrArg Prod.fst hj.symm
                    rw [hk, hk']
                    exact keyLE_of_keyLT hlt
                | succ j =>
                    rw [List.getElem?_cons_succ] at hj
                    rw [hk]
                    exact ih hx j k' l' r' hj
              · rw [if_neg hlt] at h
                injection h with h
                have hv : (k, l, r) = (k0, l0, r0) := (congrArg Prod.snd h).symm
                have hk : k = k0 := congrArg Prod.fst hv
                have hle : keyLE k0 k1 = true := not_keyLT (by simpa using hlt)
                cases j with
                | zero =>
                    rw [List.getElem?_cons_zero] at hj
                    injection hj with hj
                    injection hj with hj
                    have hk' : k' = k0 := congrArg Prod.fst hj.symm
                    rw [hk, hk']
                    exact keyLE_refl k0
                | succ j =>
                    rw [List.getElem?_cons_succ] at hj
                    have := ih hx j k' l' r' hj
                    rw [hk]
                    exact keyLE_trans hle this

theorem selectMin_leftmost : ∀ {cs : List Cursor} {i : Nat} {k : Key} {l : String}
    {r : List String}, selectMin cs = some (i, k, l, r) →
    ∀ (j : Nat), j < i → ∀ (k' : Key) (l' : String) (r' : List String),
      cs[j]? = some (some (k', l', r')) → keyLT k k' = true := by
  intro cs
  induction cs with
  | nil => intro i k l r h; exact Option.noConfusion h
  | cons c0 rest ih =>
      intro i k l r h j hji k' l' r' hj
      cases c0 with
      | none =>
          simp only [selectMin] at h
          cases hx : selectMin rest with
          | none => rw [hx] at h; simp at h
          | some v =>
              rw [hx] at h
              simp only [Option.map_some'] at h
              injection h with h
              obtain ⟨j0, k0, l0, r0⟩ := v
              have hi : i = j0 + 1 := (congrArg Prod.fst h).symm
              have hv : (k, l, r) = (k0, l0, r0) := (congrArg Prod.snd h).symm
              have hk : k = k0 := congrArg Prod.fst hv
              cases j with
              | zero => rw [List.getElem?_cons_zero] at hj; simp at hj
              | succ j =>
                  rw [List.getElem?_cons_succ] at hj
                  rw [hk]
                  exact ih hx j (by omega) k' l' r' hj
      | some v =>
          obtain ⟨k0, l0, r0⟩ := v
          simp only [selectMin] at h
          cases hx : selectMin rest with
          | none =>
              rw [hx] at h
              injection h with h
              have hi : i = 0 := (congrArg Prod.fst h).symm
              omega
          | some w =>
              obtain ⟨j0, k1, l1, r1⟩ := w
              simp only [hx] at h
              by_cases hlt : keyLT k1 k0 = true
              · rw [if_pos hlt] at h
                injection h with h
                have hi : i = j0 + 1 := (congrArg Prod.fst h).symm
                have hv : (k, l, r) = (k1, l1, r1) := (congrArg Prod.snd h).symm
                have hk : k = k1 := congrArg Prod.fst hv
                cases j with
                | zero =>
                    rw [List.getElem?_cons_zero] at hj
                    injection hj with hj
                    injection hj with hj
                    have hk' : k' = k0 := congrArg Prod.fst hj.symm
                    rw [hk, hk']
                    exact hlt
                | succ j =>
                    rw [List.getElem?_cons_succ] at hj
                    rw [hk]
                    exact ih hx j (by omega) k' l' r' hj
              · rw [if_neg hlt] at h
                injection h with h
                have hi : i = 0 := (congrArg Prod.fst h).symm
                omega


/-! ## Cursor bookkeeping -/

theorem advance_ok_lines {rest : List String} {c : Cursor} (h : advance rest = .ok c) :
    cursorLines c = rest := by
  cases rest with
  | nil =>
      simp only [advance] at h
      injection h with h
      rw [← h]
      rfl
  | cons l ls =>
      simp only [advance] at h
      cases hp : parse_key l with
      | error e => rw [hp] at h; exact Except.noConfusion h
      | ok k =>
          rw [hp] at h
          simp only [Except.map] at h
          injection h with h
          rw [← h]
          rfl

theorem advance_isOk_lines {rest : List String} (h : (advance rest).isOk = true) :
    ∃ c, advance rest = .ok c ∧ cursorLines c = rest := by
  cases hx : advance rest with
  | ok c => exact ⟨c, rfl, advance_ok_lines hx⟩
  | error e => rw [hx] at h; simp [Except.isOk, Except.toBool] at h

theorem totalRem_eq (cs : List Cursor) :
    totalRem cs = (cs.flatMap cursorLines).length := by
  induction cs with
  | nil => rfl
  | cons c rest ih =>
      simp only [totalRem, List.map_cons, List.sum_cons, List.flatMap_cons,
        List.length_append] at *
      omega

theorem flatMap_take_set (cs : List Cursor) (i : Nat) (c c' : Cursor)
    (h : cs[i]? = some c) :
    cs.flatMap cursorLines =
      (cs.take i).flatMap cursorLines ++ cursorLines c ++
        (cs.drop (i + 1)).flatMap cursorLines ∧
    (cs.set i c').flatMap cursorLines =
      (cs.take i).flatMap cursorLines ++ cursorLines c' ++
        (cs.drop (i + 1)).flatMap cursorLines := by
  induction cs generalizing i with
  | nil => simp at h
  | cons d rest ih =>
      cases i with
      | zero =>
          rw [List.getElem?_cons_zero] at h
          injection h with h
          subst h
          constructor
          · simp
          · simp
      | succ i =>
          rw [List.getElem?_cons_succ] at h
          obtain ⟨h1, h2⟩ := ih i h
          constructor
          · simp only [List.flatMap_cons, List.take_succ_cons, List.drop_succ_cons, h1]
            simp [List.append_assoc]
          · simp only [List.set_cons_succ, List.flatMap_cons, List.take_succ_cons,
              List.drop_succ_cons, h2]
            simp [List.append_assoc]

theorem mem_take_getElem? {α : Type} :
    ∀ (l : List α) (i : Nat) (a : α), a ∈ l.take i → ∃ j, j < i ∧ l[j]? = some a := by
  intro l
  induction l with
  | nil => intro i a h; simp at h
  | cons x t ih =>
      intro i a h
      cases i with
      | zero => simp at h
      | succ i =>
          rw [List.take_succ_cons] at h
          rcases List.mem_cons.mp h with rfl | h'
          · exact ⟨0, by omega, List.getElem?_cons_zero⟩
          · obtain ⟨j, hj, hget⟩ := ih i a h'
            exact ⟨j + 1, by omega, by rw [List.getElem?_cons_succ]; exact hget⟩

theorem mem_drop_getElem? {α : Type} :
    ∀ (l : List α) (i : Nat) (a : α), a ∈ l.drop i → ∃ j, i ≤ j ∧ l[j]? = some a := by
  intro l
  induction l with
  | nil => intro i a h; simp at h
  | cons x t ih =>
      intro i a h
      cases i with
      | zero =>
          rw [List.drop_zero] at h
          obtain ⟨j, hget⟩ := List.mem_iff_getElem?.mp h
          exact ⟨j, by omega, hget⟩
      | succ i =>
          rw [List.drop_succ_cons] at h
          obtain ⟨j, hj, hget⟩ := ih i a h
          exact ⟨j + 1, by omega, by rw [List.getElem?_cons_succ]; exact hget⟩

/-! ## `decodeKeys` and `sortedKeysB` -/

theorem decodeKeys_nil : decodeKeys [] = .ok [] := rfl

theorem decodeKeys_cons_ok {l : String} {ls : List String} {ks : List Key}
    (h : decodeKeys (l :: ls) = .ok ks) :
    ∃ k ks', parse_key l = .ok k ∧ decodeKeys ls = .ok ks' ∧ ks = k :: ks' := by
  simp only [decodeKeys, List.mapM_cons] at h
  cases hp : parse_key l with
  | error e => rw [hp, except_bindM_err] at h; exact Except.noConfusion h
  | ok k =>
      rw [hp, except_bindM_ok] at h
      cases hd : List.mapM parse_key ls with
      | error e => rw [hd, except_bindM_err] at h; exact Except.noConfusion h
      | ok ks' =>
          rw [hd, except_bindM_ok] at h
          injection h with h
          exact ⟨k, ks', rfl, hd, h.symm⟩

theorem decodeKeys_cons_of {l : String} {ls : List String} {k : Key} {ks : List Key}
    (hp : parse_key l = .ok k) (hd : decodeKeys ls = .ok ks) :
    decodeKeys (l :: ls) = .ok (k :: ks) := by
  simp only [decodeKeys, List.mapM_cons] at *
  rw [hp, except_bindM_ok, hd, except_bindM_ok]
  rfl

theorem decodeKeys_append_ok {xs ys : List String} {kx ky : List Key}
    (hx : decodeKeys xs = .ok kx) (hy : decodeKeys ys = .ok ky) :
    decodeKeys (xs ++ ys) = .ok (kx ++ ky) := by
  induction xs generalizing kx with
  | nil =>
      simp only [decodeKeys, List.mapM_nil] at hx
      injection hx with hx
      rw [← hx]
      simpa using hy
  | cons l ls ih =>
      obtain ⟨k, ks', hp, hd, rfl⟩ := decodeKeys_cons_ok hx
      rw [List.cons_append]
      rw [decodeKeys_cons_of hp (ih hd)]
      rfl

theorem sortedKeysB_tail {a : Key} {l : List Key} (h : sortedKeysB (a :: l) = true) :
    sortedKeysB l = true := by
  cases l with
  | nil => rfl
  | cons b t =>
      simp only [sortedKeysB, Bool.and_eq_true] at h
      exact h.2

theorem sortedKeysB_head_le {a : Key} {l : List Key} (h : sortedKeysB (a :: l) = true) :
    ∀ x ∈ l, keyLE a x = true := by
  induction l generalizing a with
  | nil => intro x hx; simp at hx
  | cons b t ih =>
      intro x hx
      simp only [sortedKeysB, Bool.and_eq_true] at h
      rcases List.mem_cons.mp hx with rfl | hx'
      · exact h.1
      · exact keyLE_trans h.1 (ih h.2 x hx')

theorem sortedKeysB_cons_of_le {a : Key} {l : List Key}
    (hle : ∀ x ∈ l, keyLE a x = true) (hs : sortedKeysB l = true) :
    sortedKeysB (a :: l) = true := by
  cases l with
  | nil => rfl
  | cons b t =>
      simp only [sortedKeysB, Bool.and_eq_true]
      exact ⟨hle b (by simp), hs⟩


theorem flatMap_cursorLines_nil {cs : List Cursor} (h : ∀ c ∈ cs, c = none) :
    cs.flatMap cursorLines = [] := by
  induction cs with
  | nil => rfl
  | cons c rest ih =>
      have hc : c = none := h c (by simp)
      subst hc
      simp only [List.flatMap_cons]
      rw [ih (fun d hd => h d (by simp [hd]))]
      rfl

theorem advance_wf {rest : List String} {ks : List Key}
    (hd : decodeKeys rest = .ok ks) (hs : sortedKeysB ks = true) :
    ∃ c', advance rest = .ok c' ∧ CursorWF c' ∧
      ∀ b, (∀ x ∈ ks, keyLE b x = true) → cursorLB b c' := by
  cases rest with
  | nil => exact ⟨none, rfl, trivial, fun b _ => trivial⟩
  | cons l ls =>
      obtain ⟨k, ks', hp, hd', rfl⟩ := decodeKeys_cons_ok hd
      refine ⟨some (k, l, ls), ?_, ⟨hp, ks', hd', hs⟩, ?_⟩
      · simp [advance, hp, Except.map]
      · intro b hb
        exact hb k (by simp)

/-! ## The merge loop: no line lost, none duplicated (unconditionally) -/

theorem mergeLoop_perm :
    ∀ (fuel : Nat) (cs : List Cursor) (out : List String),
    totalRem cs ≤ fuel →
    mergeLoop fuel cs = .ok out →
    out.Perm (cs.flatMap cursorLines) := by
  intro fuel
  induction fuel with
  | zero =>
      intro cs out hle h
      simp only [mergeLoop] at h
      injection h with h
      rw [totalRem_eq] at hle
      have hnil : cs.flatMap cursorLines = [] :=
        List.eq_nil_of_length_eq_zero (by omega)
      rw [hnil, ← h]
  | succ fuel ih =>
      intro cs out hle h
      simp only [mergeLoop] at h
      cases hsel : selectMin cs with
      | none =>
          simp only [hsel] at h
          injection h with h
          rw [flatMap_cursorLines_nil (selectMin_eq_none hsel), ← h]
      | some v =>
          obtain ⟨i, k, line, rest⟩ := v
          simp only [hsel] at h
          cases ha : advance rest with
          | error e => rw [ha, except_bindM_err] at h; exact Except.noConfusion h
          | ok c' =>
              rw [ha, except_bindM_ok] at h
              cases hm : mergeLoop fuel (cs.set i c') with
              | error e => rw [hm, except_bindM_err] at h; exact Except.noConfusion h
              | ok out' =>
                  rw [hm, except_bindM_ok] at h
                  injection h with h
                  have hmem := selectMin_mem hsel
                  obtain ⟨hcs, hcs'⟩ := flatMap_take_set cs i _ c' hmem
                  have hlines : cursorLines c' = rest := advance_ok_lines ha
                  have hlcur : cursorLines (some (k, line, rest)) = line :: rest := rfl
                  rw [hlcur] at hcs
                  rw [hlines] at hcs'
                  have hrem : totalRem (cs.set i c') ≤ fuel := by
                    rw [totalRem_eq] at hle ⊢
                    rw [hcs] at hle
                    rw [hcs']
                    simp only [List.length_append, List.length_cons] at hle ⊢
                    omega
                  have hperm := ih (cs.set i c') out' hrem hm
                  rw [hcs'] at hperm
                  have hflat : cs.flatMap cursorLines =
                      (cs.take i).flatMap cursorLines ++ line ::
                        (rest ++ (cs.drop (i + 1)).flatMap cursorLines) := by
                    rw [hcs]
                    simp [List.append_assoc]
                  rw [hflat, ← h]
                  refine List.Perm.trans ?_ List.perm_middle.symm
                  refine List.Perm.cons line ?_
                  simpa [List.append_assoc] using hperm


/-! ## Keys of lines and fibers -/

theorem decodeKeys_mem {ls : List String} :
    ∀ {ks : List Key}, decodeKeys ls = .ok ks →
    ∀ l ∈ ls, ∃ kl, parse_key l = .ok kl ∧ kl ∈ ks := by
  induction ls with
  | nil => intro ks _ l hl; simp at hl
  | cons x t ih =>
      intro ks h l hl
      obtain ⟨k, ks', hp, hd, rfl⟩ := decodeKeys_cons_ok h
      rcases List.mem_cons.mp hl with rfl | hl'
      · exact ⟨k, hp, by simp⟩
      · obtain ⟨kl, hkl, hmem⟩ := ih hd l hl'
        exact ⟨kl, hkl, by simp [hmem]⟩

theorem cursorLB_trans {b k : Key} {c : Cursor} (hbk : keyLE b k = true)
    (h : cursorLB k c) : cursorLB b c := by
  cases c with
  | none => trivial
  | some v =>
      obtain ⟨k', l', r'⟩ := v
      exact keyLE_trans hbk h

theorem lineKey_of_parse {l : String} {k : Key} (h : parse_key l = .ok k) :
    lineKey l = some k := by
  simp [lineKey, h, Except.toOption]

theorem fiberK_cons_self {k : Key} {l : String} {X : List String}
    (h : lineKey l = some k) : fiberK k (l :: X) = l :: fiberK k X := by
  simp only [fiberK, List.filter_cons]
  rw [if_pos (by simp [h])]

theorem fiberK_cons_ne {k0 k : Key} {l : String} {X : List String}
    (h : lineKey l = some k) (hne : k0 ≠ k) : fiberK k0 (l :: X) = fiberK k0 X := by
  simp only [fiberK, List.filter_cons]
  rw [if_neg (by simp [h]; exact fun he => hne he.symm)]

/-- Every line held behind a cursor whose pending key is strictly above `k`
carries a key strictly above `k`. -/
theorem cursor_lines_keyGT {k k0 : Key} {l0 : String} {r0 : List String}
    (hwf : CursorWF (some (k0, l0, r0))) (hk0 : keyLT k k0 = true) :
    ∀ l ∈ cursorLines (some (k0, l0, r0)), ∀ kl, lineKey l = some kl →
      keyLT k kl = true := by
  obtain ⟨hp, ks, hd, hs⟩ := hwf
  intro l hl kl hkl
  rcases List.mem_cons.mp hl with rfl | hl'
  · rw [lineKey_of_parse hp] at hkl
    injection hkl with hkl
    rw [← hkl]
    exact hk0
  · obtain ⟨kl', hkl', hmem⟩ := decodeKeys_mem hd l hl'
    rw [lineKey_of_parse hkl'] at hkl
    injection hkl with hkl
    rw [← hkl]
    exact keyLT_keyLE_trans hk0 (keyLE_trans (keyLE_refl k0) (sortedKeysB_head_le hs kl' hmem))


theorem fiberK_append (k : Key) (X Y : List String) :
    fiberK k (X ++ Y) = fiberK k X ++ fiberK k Y := by
  simp [fiberK, List.filter_append]

/-- The main invariant of the heap loop over well-formed sorted cursors:
it succeeds, its output decodes to a non-decreasing key sequence, any lower
bound of all pending keys bounds the whole output, and for every key the
output's fiber is exactly the concatenation (in cursor order) of the
cursors' fibers. -/
theorem mergeLoop_spec :
    ∀ (fuel : Nat) (cs : List Cursor),
    totalRem cs ≤ fuel →
    (∀ c ∈ cs, CursorWF c) →
    ∃ out ks,
      mergeLoop fuel cs = .ok out ∧
      decodeKeys out = .ok ks ∧
      sortedKeysB ks = true ∧
      (∀ b, (∀ c ∈ cs, cursorLB b c) → ∀ x ∈ ks, keyLE b x = true) ∧
      (∀ k0 : Key, fiberK k0 out = fiberK k0 (cs.flatMap cursorLines)) := by
  intro fuel
  induction fuel with
  | zero =>
      intro cs hle _
      refine ⟨[], [], rfl, rfl, rfl, ?_, ?_⟩
      · intro b _ x hx; simp at hx
      · intro k0
        rw [totalRem_eq] at hle
        have hnil : cs.flatMap cursorLines = [] :=
          List.eq_nil_of_length_eq_zero (by omega)
        rw [hnil]
  | succ fuel ih =>
      intro cs hle hwf
      cases hsel : selectMin cs with
      | none =>
          refine ⟨[], [], by simp only [mergeLoop, hsel], rfl, rfl, ?_, ?_⟩
          · intro b _ x hx; simp at hx
          · intro k0
            rw [flatMap_cursorLines_nil (selectMin_eq_none hsel)]
      | some v =>
          obtain ⟨i, k, line, rest⟩ := v
          have hmem := selectMin_mem hsel
          have hwfi : CursorWF (some (k, line, rest)) :=
            hwf _ (List.mem_iff_getElem?.mpr ⟨i, hmem⟩)
          obtain ⟨hp, ksr, hdr, hsr⟩ := hwfi
          have hhead : ∀ x ∈ ksr, keyLE k x = true := sortedKeysB_head_le hsr
          obtain ⟨c', ha, hwfc', hlb⟩ := advance_wf hdr (sortedKeysB_tail hsr)
          have hlbk : cursorLB k c' := hlb k hhead
          have hLBall : ∀ c ∈ cs, cursorLB k c := by
            intro c hc
            obtain ⟨j, hj⟩ := List.mem_iff_getElem?.mp hc
            cases c with
            | none => trivial
            | some w =>
                obtain ⟨k', l', r'⟩ := w
                exact selectMin_min hsel j k' l' r' hj
          have hwf' : ∀ c ∈ cs.set i c', CursorWF c := by
            intro c hc
            rcases List.mem_or_eq_of_mem_set hc with hc' | rfl
            · exact hwf c hc'
            · exact hwfc'
          have hLB' : ∀ c ∈ cs.set i c', cursorLB k c := by
            intro c hc
            rcases List.mem_or_eq_of_mem_set hc with hc' | rfl
            · exact hLBall c hc'
            · exact hlbk
          obtain ⟨hcs, hcs'⟩ := flatMap_take_set cs i _ c' hmem
          have hlines : cursorLines c' = rest := advance_ok_lines ha
          have hlcur : cursorLines (some (k, line, rest)) = line :: rest := rfl
          rw [hlcur] at hcs
          rw [hlines] at hcs'
          have hrem : totalRem (cs.set i c') ≤ fuel := by
            rw [totalRem_eq] at hle ⊢
            rw [hcs] at hle
            rw [hcs']
            simp only [List.length_append, List.length_cons] at hle ⊢
            omega
          obtain ⟨out', ks', hml, hdk', hs', hlbtr, hfib⟩ := ih (cs.set i c') hrem hwf'
          refine ⟨line :: out', k :: ks', ?_, ?_, ?_, ?_, ?_⟩
          · simp only [mergeLoop, hsel]
            rw [ha, except_bindM_ok, hml, except_bindM_ok]
          · exact decodeKeys_cons_of hp hdk'
          · exact sortedKeysB_cons_of_le (hlbtr k hLB') hs'
          · intro b hb x hx
            have hbk : keyLE b k = true :=
              hb _ (List.mem_iff_getElem?.mpr ⟨i, hmem⟩)
            rcases List.mem_cons.mp hx with rfl | hx'
            · exact hbk
            · refine hlbtr b ?_ x hx'
              intro c hc
              rcases List.mem_or_eq_of_mem_set hc with hc' | rfl
              · exact hb c hc'
              · exact cursorLB_trans hbk hlbk
          · intro k0
            have hlk : lineKey line = some k := lineKey_of_parse hp
            have hfib' := hfib k0
            rw [hcs'] at hfib'
            rw [hcs]
            by_cases hk0 : k0 = k
            · subst hk0
              have hlk' : lineKey line = some k0 := hlk
              have hA : fiberK k0 ((cs.take i).flatMap cursorLines) = [] := by
                rw [fiberK, List.filter_eq_nil_iff]
                intro l' hl' hpred
                simp only [beq_iff_eq] at hpred
                obtain ⟨c, hcmem, hlc⟩ := List.mem_flatMap.mp hl'
                obtain ⟨j, hji, hj⟩ := mem_take_getElem? cs i c hcmem
                cases c with
                | none => simp [cursorLines] at hlc
                | some w =>
                    obtain ⟨k', l2, r2⟩ := w
                    have hklt : keyLT k0 k' = true :=
                      selectMin_leftmost hsel j hji k' l2 r2 hj
                    have hwfc := hwf _ (List.mem_iff_getElem?.mpr ⟨j, hj⟩)
                    have hgt := cursor_lines_keyGT hwfc hklt l' hlc k0 hpred
                    exact ne_of_keyLT hgt rfl
              rw [fiberK_cons_self hlk', hfib']
              simp only [fiberK_append]
              rw [hA, fiberK_cons_self hlk']
              simp
            · rw [fiberK_cons_ne hlk hk0, hfib']
              simp only [fiberK_append]
              rw [fiberK_cons_ne hlk hk0]

/-! ## `merge_batch` over well-formed sorted files -/

theorem wellFormedSorted_elim {lines : List String} (h : wellFormedSorted lines = true) :
    ∃ ks, decodeKeys lines = .ok ks ∧ sortedKeysB ks = true := by
  unfold wellFormedSorted at h
  cases hx : decodeKeys lines with
  | error e => rw [hx] at h; simp at h
  | ok ks => rw [hx] at h; exact ⟨ks, rfl, h⟩

theorem wellFormedSorted_intro {lines : List String} {ks : List Key}
    (hd : decodeKeys lines = .ok ks) (hs : sortedKeysB ks = true) :
    wellFormedSorted lines = true := by
  unfold wellFormedSorted
  rw [hd]
  exact hs

theorem initFiles_ok_some (h0 : String) :
    ∀ (files : List EventFile),
    (∀ f ∈ files, wellFormedSorted f.data = true) →
    (∀ f ∈ files, f.header = h0) →
    ∃ cs, initFiles (some h0) files = .ok (some h0, cs) ∧
      (∀ c ∈ cs, CursorWF c) ∧
      cs.flatMap cursorLines = files.flatMap (·.data) := by
  intro files
  induction files with
  | nil => exact fun _ _ => ⟨[], rfl, by simp, rfl⟩
  | cons f fs ih =>
      intro hwf hhd
      obtain ⟨ks, hd, hs⟩ := wellFormedSorted_elim (hwf f (by simp))
      obtain ⟨c', ha, hwfc', _⟩ := advance_wf hd hs
      obtain ⟨cs, hi, hcwf, hlines⟩ :=
        ih (fun g hg => hwf g (by simp [hg])) (fun g hg => hhd g (by simp [hg]))
      refine ⟨c' :: cs, ?_, ?_, ?_⟩
      · simp only [initFiles]
        rw [if_pos (hhd f (by simp)), except_bindM_ok, ha, except_bindM_ok, hi,
          except_bindM_ok]
      · intro c hc
        rcases List.mem_cons.mp hc with rfl | hc'
        · exact hwfc'
        · exact hcwf c hc'
      · simp only [List.flatMap_cons]
        rw [advance_ok_lines ha, hlines]

/-- `merge_batch` over a non-empty list of sorted files with a common
header succeeds; the output carries the common header, is itself sorted,
and has, for every key, exactly the concatenation (in input order) of the
inputs' lines with that key. -/
theorem merge_batch_sorted (files : List EventFile) (p h0 : String)
    (hwf : ∀ f ∈ files, wellFormedSorted f.data = true)
    (hhd : ∀ f ∈ files, f.header = h0)
    (hne : files ≠ []) :
    ∃ out, merge_batch files p = .ok (some out) ∧
      out.path = p ∧ out.header = h0 ∧
      wellFormedSorted out.data = true ∧
      (∀ k0, fiberK k0 out.data = fiberK k0 (files.flatMap (·.data))) := by
  obtain ⟨f, fs, rfl⟩ : ∃ f fs, files = f :: fs := by
    cases files with
    | nil => exact absurd rfl hne
    | cons f fs => exact ⟨f, fs, rfl⟩
  obtain ⟨ks, hd, hs⟩ := wellFormedSorted_elim (hwf f (by simp))
  obtain ⟨c', ha, hwfc', _⟩ := advance_wf hd hs
  obtain ⟨cs, hi, hcwf, hlines⟩ :=
    initFiles_ok_some h0 fs (fun g hg => hwf g (by simp [hg]))
      (fun g hg => hhd g (by simp [hg]))
  have hf0 : f.header = h0 := hhd f (by simp)
  have hall : ∀ c ∈ c' :: cs, CursorWF c := by
    intro c hc
    rcases List.mem_cons.mp hc with rfl | hc'
    · exact hwfc'
    · exact hcwf c hc'
  obtain ⟨o, kso, hml, hdo, hso, _, hfib⟩ :=
    mergeLoop_spec (totalRem (c' :: cs)) (c' :: cs) (le_refl _) hall
  refine ⟨⟨p, h0, o⟩, ?_, rfl, rfl, wellFormedSorted_intro hdo hso, ?_⟩
  · simp only [merge_batch, initFiles, hf0]
    rw [except_bindM_ok, ha, except_bindM_ok, hi, except_bindM_ok, except_bindM_ok]
    rw [hml]
    rfl
  · intro k0
    have := hfib k0
    rw [this]
    have hflat : (c' :: cs).flatMap cursorLines = (f :: fs).flatMap (·.data) := by
      simp only [List.flatMap_cons]
      rw [advance_ok_lines ha, hlines]
    rw [hflat]


/-! ## Rounds of `multi_pass_merge` over sorted files -/

theorem chunksGo_flatten {α : Type} (n : Nat) (hn : 1 ≤ n) :
    ∀ (fuel : Nat) (xs : List α), xs.length ≤ fuel →
    (chunksGo n fuel xs).flatten = xs := by
  intro fuel
  induction fuel with
  | zero =>
      intro xs hle
      cases xs with
      | nil => rfl
      | cons a l => simp at hle
  | succ f ih =>
      intro xs hle
      cases xs with
      | nil => rfl
      | cons a l =>
          simp only [chunksGo, List.flatten_cons]
          rw [ih ((a :: l).drop n) (by simp [List.length_drop] at hle ⊢; omega)]
          exact List.take_append_drop n (a :: l)

theorem chunks_flatten {α : Type} (n : Nat) (hn : 1 ≤ n) (xs : List α) :
    (chunks n xs).flatten = xs := by
  unfold chunks
  rw [if_neg (by omega)]
  exact chunksGo_flatten n hn xs.length xs (le_refl _)

theorem chunksGo_ne_nil {α : Type} (n : Nat) (hn : 1 ≤ n) :
    ∀ (fuel : Nat) (xs : List α) (b : List α), b ∈ chunksGo n fuel xs → b ≠ [] := by
  intro fuel
  induction fuel with
  | zero =>
      intro xs b hb
      cases xs with
      | nil => simp [chunksGo] at hb
      | cons a l => simp [chunksGo] at hb
  | succ f ih =>
      intro xs b hb
      cases xs with
      | nil => simp [chunksGo] at hb
      | cons a l =>
          simp only [chunksGo] at hb
          rcases List.mem_cons.mp hb with rfl | hb'
          · obtain ⟨m, rfl⟩ : ∃ m, n = m + 1 := ⟨n - 1, by omega⟩
            simp [List.take_succ_cons]
          · exact ih ((a :: l).drop n) b hb'

theorem chunks_mem_ne_nil {α : Type} {n : Nat} (hn : 1 ≤ n) {xs : List α}
    {b : List α} (hb : b ∈ chunks n xs) : b ≠ [] := by
  unfold chunks at hb
  rw [if_neg (by omega)] at hb
  exact chunksGo_ne_nil n hn xs.length xs b hb

theorem chunks_cons_ne_nil {α : Type} {n : Nat} (hn : 1 ≤ n) (x : α) (xs : List α) :
    chunks n (x :: xs) ≠ [] := by
  unfold chunks
  rw [if_neg (by omega)]
  simp [chunksGo]

/-- A merge round over non-empty batches of sorted, same-header files
succeeds, yields exactly one sorted same-header file per batch, and
preserves, for every key, the concatenation of the key's lines. -/
theorem mergeRound_spec (outp : String) (mo rid : Nat) (h0 : String) :
    ∀ (batches : List (List EventFile)) (j : Nat),
    (∀ b ∈ batches, b ≠ []) →
    (∀ b ∈ batches, ∀ f ∈ b, wellFormedSorted f.data = true ∧ f.header = h0) →
    ∃ next, mergeRound outp mo rid j batches = .ok next ∧
      next.length = batches.length ∧
      (∀ f ∈ next, wellFormedSorted f.data = true ∧ f.header = h0) ∧
      (∀ k0, fiberK k0 (next.flatMap (·.data)) =
        fiberK k0 (batches.flatten.flatMap (·.data))) := by
  intro batches
  induction batches with
  | nil =>
      intro j _ _
      exact ⟨[], rfl, rfl, by simp, fun k0 => rfl⟩
  | cons b rest ih =>
      intro j hne hwf
      obtain ⟨next', hrec, hlen, hnwf, hnfib⟩ :=
        ih (j + 1) (fun c hc => hne c (by simp [hc])) (fun c hc => hwf c (by simp [hc]))
      match b, hne b (by simp) with
      | [p], _ =>
          refine ⟨p :: next', ?_, by simp [hlen], ?_, ?_⟩
          · simp only [mergeRound]
            rw [hrec, except_bindM_ok]
          · intro f hf
            rcases List.mem_cons.mp hf with rfl | hf'
            · exact hwf [f] (by simp) f (by simp)
            · exact hnwf f hf'
          · intro k0
            simp only [List.flatten_cons, List.flatMap_cons, List.flatMap_append,
              fiberK_append, List.singleton_append]
            rw [hnfib k0]
      | p :: q :: bs, _ =>
          obtain ⟨m, hm, hmp, hmh, hmwf, hmfib⟩ :=
            merge_batch_sorted (p :: q :: bs) (mergeTmpPath outp rid j) h0
              (fun f hf => (hwf (p :: q :: bs) (by simp) f hf).1)
              (fun f hf => (hwf (p :: q :: bs) (by simp) f hf).2)
              (by simp)
          refine ⟨m :: next', ?_, by simp [hlen], ?_, ?_⟩
          · simp only [mergeRound]
            rw [hm, except_bindM_ok, hrec, except_bindM_ok]
          · intro f hf
            rcases List.mem_cons.mp hf with rfl | hf'
            · exact ⟨hmwf, hmh⟩
            · exact hnwf f hf'
          · intro k0
            simp only [List.flatten_cons, List.flatMap_cons, List.flatMap_append,
              fiberK_append]
            rw [hnfib k0, hmfib k0]
            simp [fiberK_append, List.flatMap_cons, List.append_assoc]


/-- The whole multi-pass loop over non-empty sorted same-header paths with
budget at least 2: it succeeds, and the final file has the common header,
is sorted, and preserves every key's fiber of the concatenated inputs. -/
theorem multiPassGo_spec (outp : String) (mo : Nat) (hmo : 2 ≤ mo) (h0 : String) :
    ∀ (fuel : Nat) (paths : List EventFile) (rid : Nat),
    paths.length ≤ fuel →
    paths ≠ [] →
    (∀ f ∈ paths, wellFormedSorted f.data = true) →
    (∀ f ∈ paths, f.header = h0) →
    ∃ res, multiPassGo outp mo fuel rid paths = .ok (some res) ∧
      res.path = outp ∧ res.header = h0 ∧ wellFormedSorted res.data = true ∧
      (∀ k0, fiberK k0 res.data = fiberK k0 (paths.flatMap (·.data))) := by
  intro fuel
  induction fuel using Nat.strong_induction_on with
  | _ fuel ih =>
      intro paths rid hle hne hwf hhd
      by_cases hlen : paths.length ≤ 1
      · obtain ⟨f, rfl⟩ : ∃ f, paths = [f] := by
          cases paths with
          | nil => exact absurd rfl hne
          | cons f t =>
              cases t with
              | nil => exact ⟨f, rfl⟩
              | cons g t2 => simp at hlen
        rw [multiPassGo_base outp mo fuel rid [f] (by simp)]
        refine ⟨{ f with path := outp }, rfl, rfl, hhd f (by simp), hwf f (by simp), ?_⟩
        intro k0
        simp
      · have h2 : 2 ≤ paths.length := by omega
        obtain ⟨fl, rfl⟩ : ∃ fl, fuel = fl + 1 := ⟨fuel - 1, by omega⟩
        have hbne : ∀ b ∈ chunks mo paths, b ≠ [] :=
          fun b hb => chunks_mem_ne_nil (by omega) hb
        have hbwf : ∀ b ∈ chunks mo paths, ∀ f ∈ b,
            wellFormedSorted f.data = true ∧ f.header = h0 := by
          intro b hb f hf
          have hmem : f ∈ paths := by
            rw [← chunks_flatten mo (by omega) paths]
            exact List.mem_flatten.mpr ⟨b, hb, hf⟩
          exact ⟨hwf f hmem, hhd f hmem⟩
        obtain ⟨next, hr, hlen', hnwf, hnfib⟩ :=
          mergeRound_spec outp mo rid h0 (chunks mo paths) 0 hbne hbwf
        rw [multiPassGo_step outp mo fl rid paths hlen, hr, except_bind_ok]
        have hnextlen : next.length < paths.length := by
          have := chunks_length_lt mo paths hmo (by omega)
          omega
        have hnextne : next ≠ [] := by
          cases paths with
          | nil => exact absurd rfl hne
          | cons x xs =>
              have hch := chunks_cons_ne_nil (n := mo) (by omega) x xs
              intro hnil
              rw [hnil] at hlen'
              have hpos : 0 < (chunks mo (x :: xs)).length := List.length_pos.mpr hch
              simp at hlen'
              omega
        obtain ⟨res, hres, hp, hh, hwfres, hfibres⟩ :=
          ih fl (by omega) next (rid + 1) (by omega) hnextne
            (fun f hf => (hnwf f hf).1) (fun f hf => (hnwf f hf).2)
        refine ⟨res, hres, hp, hh, hwfres, ?_⟩
        intro k0
        rw [hfibres k0, hnfib k0, chunks_flatten mo (by omega) paths]


/-! ## Uniqueness: a sorted run of lines is determined by its key fibers -/

theorem wellFormedSorted_tail {a : String} {t : List String}
    (h : wellFormedSorted (a :: t) = true) : wellFormedSorted t = true := by
  obtain ⟨ks, hd, hs⟩ := wellFormedSorted_elim h
  obtain ⟨k, ks', hp, hd', rfl⟩ := decodeKeys_cons_ok hd
  exact wellFormedSorted_intro hd' (sortedKeysB_tail hs)

theorem fiberK_ne_nil {k : Key} {line : String} {l : List String}
    (hmem : line ∈ l) (hk : lineKey line = some k) : fiberK k l ≠ [] := by
  have hin : line ∈ fiberK k l := List.mem_filter.mpr ⟨hmem, by simp [hk]⟩
  intro hnil
  rw [hnil] at hin
  simp at hin

theorem mem_fiberK_exists {k : Key} {l : List String} (h : fiberK k l ≠ []) :
    ∃ line ∈ l, lineKey line = some k := by
  cases hx : fiberK k l with
  | nil => exact absurd hx h
  | cons x t =>
      have hmem : x ∈ fiberK k l := by rw [hx]; simp
      have hf := List.mem_filter.mp hmem
      exact ⟨x, hf.1, by simpa [beq_iff_eq] using hf.2⟩

theorem sorted_fiber_unique :
    ∀ (l1 l2 : List String),
    wellFormedSorted l1 = true → wellFormedSorted l2 = true →
    (∀ k, fiberK k l1 = fiberK k l2) → l1 = l2 := by
  intro l1
  induction l1 with
  | nil =>
      intro l2 _ hw2 hfib
      cases l2 with
      | nil => rfl
      | cons b t2 =>
          obtain ⟨ks, hd, _⟩ := wellFormedSorted_elim hw2
          obtain ⟨kb, ks', hpb, _, rfl⟩ := decodeKeys_cons_ok hd
          have hne := fiberK_ne_nil (List.mem_cons_self b t2) (lineKey_of_parse hpb)
          rw [← hfib kb] at hne
          exact absurd rfl hne
  | cons a t1 ih =>
      intro l2 hw1 hw2 hfib
      obtain ⟨ks1, hd1, hs1⟩ := wellFormedSorted_elim hw1
      obtain ⟨ka, ks1', hpa, hd1', hks1⟩ := decodeKeys_cons_ok hd1
      cases l2 with
      | nil =>
          have hne := fiberK_ne_nil (List.mem_cons_self a t1) (lineKey_of_parse hpa)
          rw [hfib ka] at hne
          exact absurd rfl hne
      | cons b t2 =>
          obtain ⟨ks2, hd2, hs2⟩ := wellFormedSorted_elim hw2
          obtain ⟨kb, ks2', hpb, hd2', hks2⟩ := decodeKeys_cons_ok hd2
          subst hks1
          subst hks2
          have hkakb : ka = kb := by
            have hnb : fiberK kb (a :: t1) ≠ [] := by
              rw [hfib kb]
              exact fiberK_ne_nil (List.mem_cons_self b t2) (lineKey_of_parse hpb)
            obtain ⟨lx, hlx, hlxk⟩ := mem_fiberK_exists hnb
            have h1 : keyLE ka kb = true := by
              obtain ⟨kl, hkl, hmemk⟩ := decodeKeys_mem hd1 lx hlx
              rw [lineKey_of_parse hkl] at hlxk
              injection hlxk with hlxk
              subst hlxk
              rcases List.mem_cons.mp hmemk with rfl | hin
              · exact keyLE_refl _
              · exact sortedKeysB_head_le hs1 kl hin
            have hna : fiberK ka (b :: t2) ≠ [] := by
              rw [← hfib ka]
              exact fiberK_ne_nil (List.mem_cons_self a t1) (lineKey_of_parse hpa)
            obtain ⟨ly, hly, hlyk⟩ := mem_fiberK_exists hna
            have h2 : keyLE kb ka = true := by
              obtain ⟨kl, hkl, hmemk⟩ := decodeKeys_mem hd2 ly hly
              rw [lineKey_of_parse hkl] at hlyk
              injection hlyk with hlyk
              subst hlyk
              rcases List.mem_cons.mp hmemk with rfl | hin
              · exact keyLE_refl _
              · exact sortedKeysB_head_le hs2 kl hin
            exact keyLE_antisymm h1 h2
          subst hkakb
          have hfa := hfib ka
          rw [fiberK_cons_self (lineKey_of_parse hpa),
            fiberK_cons_self (lineKey_of_parse hpb)] at hfa
          have hab : a = b := by injection hfa
          have hta : fiberK ka t1 = fiberK ka t2 := by injection hfa
          subst hab
          have htail : ∀ k, fiberK k t1 = fiberK k t2 := by
            intro k
            by_cases hk : k = ka
            · subst hk
              exact hta
            · have := hfib k
              rw [fiberK_cons_ne (lineKey_of_parse hpa) hk,
                fiberK_cons_ne (lineKey_of_parse hpb) hk] at this
              exact this
          rw [ih t2 (wellFormedSorted_tail hw1) (wellFormedSorted_tail hw2) htail]


/-! ## Claim C2: no line lost, none duplicated -/

theorem initFiles_some_header :
    ∀ (fs : List EventFile) (h0 : String) (h' : Option String) (cs : List Cursor),
    initFiles (some h0) fs = .ok (h', cs) → h' = some h0 := by
  intro fs
  induction fs with
  | nil =>
      intro h0 h' cs h
      simp only [initFiles] at h
      injection h with h
      exact (congrArg Prod.fst h).symm
  | cons f fs ih =>
      intro h0 h' cs h
      simp only [initFiles] at h
      by_cases hf : f.header = h0
      · rw [if_pos hf, except_bindM_ok] at h
        cases ha : advance f.data with
        | error e => rw [ha, except_bindM_err] at h; exact Except.noConfusion h
        | ok c =>
            rw [ha, except_bindM_ok] at h
            cases hi : initFiles (some h0) fs with
            | error e => rw [hi, except_bindM_err] at h; exact Except.noConfusion h
            | ok st =>
                obtain ⟨h2, cs2⟩ := st
                rw [hi, except_bindM_ok] at h
                injection h with h
                simp only [Prod.mk.injEq] at h
                rw [← h.1]
                exact ih h0 h2 cs2 hi
      · rw [if_neg hf, except_bindM_err] at h
        exact Except.noConfusion h

theorem initFiles_lines :
    ∀ (files : List EventFile) (h : Option String) (hr : Option String) (cs : List Cursor),
    initFiles h files = .ok (hr, cs) →
    cs.flatMap cursorLines = files.flatMap (·.data) := by
  intro files
  induction files with
  | nil =>
      intro h hr cs hh
      simp only [initFiles] at hh
      injection hh with hh
      simp only [Prod.mk.injEq] at hh
      rw [← hh.2]
      rfl
  | cons f fs ih =>
      intro h hr cs hh
      cases h with
      | none =>
          simp only [initFiles] at hh
          rw [except_bindM_ok] at hh
          cases ha : advance f.data with
          | error e => rw [ha, except_bindM_err] at hh; exact Except.noConfusion hh
          | ok c =>
              rw [ha, except_bindM_ok] at hh
              cases hi : initFiles (some f.header) fs with
              | error e => rw [hi, except_bindM_err] at hh; exact Except.noConfusion hh
              | ok st =>
                  obtain ⟨h2, cs2⟩ := st
                  rw [hi, except_bindM_ok] at hh
                  injection hh with hh
                  simp only [Prod.mk.injEq] at hh
                  rw [← hh.2]
                  simp only [List.flatMap_cons]
                  rw [advance_ok_lines ha, ih (some f.header) h2 cs2 hi]
      | some h0 =>
          simp only [initFiles] at hh
          by_cases hf : f.header = h0
          · rw [if_pos hf, except_bindM_ok] at hh
            cases ha : advance f.data with
            | error e => rw [ha, except_bindM_err] at hh; exact Except.noConfusion hh
            | ok c =>
                rw [ha, except_bindM_ok] at hh
                cases hi : initFiles (some h0) fs with
                | error e => rw [hi, except_bindM_err] at hh; exact Except.noConfusion hh
                | ok st =>
                    obtain ⟨h2, cs2⟩ := st
                    rw [hi, except_bindM_ok] at hh
                    injection hh with hh
                    simp only [Prod.mk.injEq] at hh
                    rw [← hh.2]
                    simp only [List.flatMap_cons]
                    rw [advance_ok_lines ha, ih (some h0) h2 cs2 hi]
          · rw [if_neg hf, except_bindM_err] at hh
            exact Except.noConfusion hh

/-- Inversion of a successful `merge_batch` over a non-empty input: the
result is a file whose data is a permutation of the inputs' data. -/
theorem merge_batch_cons_ok {f : EventFile} {fs : List EventFile} {p : String}
    {res : Option EventFile} (h : merge_batch (f :: fs) p = .ok res) :
    ∃ m, res = some m ∧ m.data.Perm ((f :: fs).flatMap (·.data)) ∧
      m.header = f.header ∧ m.path = p := by
  simp only [merge_batch, initFiles, except_bindM_ok] at h
  cases ha : advance f.data with
  | error e => rw [ha, except_bindM_err] at h; exact Except.noConfusion h
  | ok c =>
      rw [ha, except_bindM_ok] at h
      cases hi : initFiles (some f.header) fs with
      | error e => rw [hi, except_bindM_err] at h; exact Except.noConfusion h
      | ok st =>
          obtain ⟨h2, cs2⟩ := st
          rw [hi, except_bindM_ok] at h
          have hh2 : h2 = some f.header := initFiles_some_header fs f.header h2 cs2 hi
          subst hh2
          rw [except_bindM_ok] at h
          dsimp only at h
          cases hml : mergeLoop (totalRem (c :: cs2)) (c :: cs2) with
          | error e => rw [hml, except_bindM_err] at h; exact Except.noConfusion h
          | ok o =>
              rw [hml, except_bindM_ok] at h
              injection h with h
              refine ⟨⟨p, f.header, o⟩, h.symm, ?_, rfl, rfl⟩
              have hperm := mergeLoop_perm (totalRem (c :: cs2)) (c :: cs2) o (le_refl _) hml
              have hlines : (c :: cs2).flatMap cursorLines = (f :: fs).flatMap (·.data) := by
                simp only [List.flatMap_cons]
                rw [advance_ok_lines ha, initFiles_lines fs (some f.header) _ cs2 hi]
              rw [hlines] at hperm
              exact hperm

theorem mergeRound_perm (outp : String) (mo rid : Nat) :
    ∀ (batches : List (List EventFile)) (j : Nat) (next : List EventFile),
    mergeRound outp mo rid j batches = .ok next →
    (next.flatMap (·.data)).Perm (batches.flatten.flatMap (·.data)) := by
  intro batches
  induction batches with
  | nil =>
      intro j next h
      simp only [mergeRound] at h
      injection h with h
      rw [← h]
      rfl
  | cons b rest ih =>
      intro j next h
      match b, h with
      | [], h =>
          simp only [mergeRound, merge_batch, initFiles, except_bindM_ok] at h
          cases hrec : mergeRound outp mo rid (j + 1) rest with
          | error e => rw [hrec, except_bindM_err] at h; exact Except.noConfusion h
          | ok others =>
              rw [hrec, except_bindM_ok] at h
              injection h with h
              rw [← h]
              simpa using ih (j + 1) others hrec
      | [p], h =>
          simp only [mergeRound] at h
          cases hrec : mergeRound outp mo rid (j + 1) rest with
          | error e => rw [hrec, except_bindM_err] at h; exact Except.noConfusion h
          | ok others =>
              rw [hrec, except_bindM_ok] at h
              injection h with h
              rw [← h]
              simp only [List.flatMap_cons, List.flatten_cons, List.flatMap_append,
                List.singleton_append]
              exact List.Perm.append_left p.data (ih (j + 1) others hrec)
      | q :: q2 :: bs, h =>
          simp only [mergeRound] at h
          cases hm : merge_batch (q :: q2 :: bs) (mergeTmpPath outp rid j) with
          | error e => rw [hm, except_bindM_err] at h; exact Except.noConfusion h
          | ok m =>
              rw [hm, except_bindM_ok] at h
              cases hrec : mergeRound outp mo rid (j + 1) rest with
              | error e => rw [hrec, except_bindM_err] at h; exact Except.noConfusion h
              | ok others =>
                  rw [hrec, except_bindM_ok] at h
                  obtain ⟨m', rfl, hperm, _, _⟩ := merge_batch_cons_ok hm
                  injection h with h
                  rw [← h]
                  simp only [List.flatMap_cons, List.flatten_cons, List.flatMap_append]
                  exact List.Perm.append hperm (ih (j + 1) others hrec)


theorem multiPassGo_perm (outp : String) (mo : Nat) :
    ∀ (fuel : Nat) (paths : List EventFile) (rid : Nat) (m : EventFile),
    multiPassGo outp mo fuel rid paths = .ok (some m) →
    m.data.Perm (paths.flatMap (·.data)) := by
  intro fuel
  induction fuel using Nat.strong_induction_on with
  | _ fuel ih =>
      intro paths rid m h
      by_cases hlen : paths.length ≤ 1
      · rw [multiPassGo_base outp mo fuel rid paths hlen] at h
        cases paths with
        | nil => simp at h
        | cons f t =>
            cases t with
            | nil =>
                injection h with h
                injection h with h
                rw [← h]
                simp
            | cons g t2 => simp at hlen
      · cases fuel with
        | zero =>
            simp only [multiPassGo] at h
            rw [if_neg hlen] at h
            exact Except.noConfusion h
        | succ fl =>
            rw [multiPassGo_step outp mo fl rid paths hlen] at h
            cases hr : mergeRound outp mo rid 0 (chunks mo paths) with
            | error e => rw [hr, except_bind_err] at h; exact Except.noConfusion h
            | ok next =>
                rw [hr, except_bind_ok] at h
                have hm := ih fl (by omega) next (rid + 1) m h
                by_cases hmo : 1 ≤ mo
                · have hnp := mergeRound_perm outp mo rid (chunks mo paths) 0 next hr
                  rw [chunks_flatten mo hmo paths] at hnp
                  exact hm.trans hnp
                · have h0 : mo = 0 := by omega
                  subst h0
                  have hchunks : chunks 0 paths = ([] : List (List EventFile)) := rfl
                  rw [hchunks] at hr
                  simp only [mergeRound] at hr
                  injection hr with hr
                  rw [← hr] at h
                  rw [multiPassGo_base outp 0 fl (rid + 1) [] (by simp)] at h
                  simp at h

/-- C2: a successful merge emits exactly one data line for each data line
of each input — the output's data is a permutation of the concatenated
input data, so the total count is the sum of the per-source counts; this
holds for one `merge_batch` and transitively for `multi_pass_merge`. -/
theorem c2_count_preserved :
    (∀ (files : List EventFile) (p : String) (out : EventFile),
      merge_batch files p = .ok (some out) →
      out.data.Perm (files.flatMap (·.data)) ∧
      out.data.length = (files.map (·.data.length)).sum) ∧
    (∀ (files : List EventFile) (p : String) (mo : Nat) (out : EventFile),
      multi_pass_merge files p mo = .ok (some out) →
      out.data.Perm (files.flatMap (·.data)) ∧
      out.data.length = (files.map (·.data.length)).sum) := by
  have hlen : ∀ (files : List EventFile) (out : EventFile),
      out.data.Perm (files.flatMap (·.data)) →
      out.data.length = (files.map (·.data.length)).sum := by
    intro files out hperm
    rw [hperm.length_eq, List.length_flatMap]
    congr 1
  constructor
  · intro files p out h
    cases files with
    | nil =>
        simp only [merge_batch, initFiles, except_bindM_ok] at h
        exact absurd h (by simp)
    | cons f fs =>
        obtain ⟨m, hm, hperm, _, _⟩ := merge_batch_cons_ok h
        injection hm with hm
        rw [hm]
        exact ⟨hperm, hlen _ _ hperm⟩
  · intro files p mo out h
    have hperm := multiPassGo_perm p mo files.length files 0 out h
    exact ⟨hperm, hlen _ _ hperm⟩

/-- Witness for C2 on a concrete successful merge of two files. -/
theorem c2_count_preserved_witness :
    (["1,1", "1,2", "1,3"] : List String).Perm
        (([⟨"a", "H", ["1,1", "1,3"]⟩, ⟨"b", "H", ["1,2"]⟩] : List EventFile).flatMap
          (·.data)) ∧
    (["1,1", "1,2", "1,3"] : List String).length =
      (([⟨"a", "H", ["1,1", "1,3"]⟩, ⟨"b", "H", ["1,2"]⟩] : List EventFile).map
        (·.data.length)).sum :=
  c2_count_preserved.1 [⟨"a", "H", ["1,1", "1,3"]⟩, ⟨"b", "H", ["1,2"]⟩] "out"
    ⟨"out", "H", ["1,1", "1,2", "1,3"]⟩ (by rfl)


/-! ## Claims C1 and C3 -/

/-- C1: for input event files that are each internally sorted by the
integer pair `(channel, sequence)` parsed from the first two CSV fields
and that share one header line, `merge_batch` succeeds and its output
satisfies the same adjacent-pairs invariant — and so does
`multi_pass_merge` over the same files for any budget of at least 2. -/
theorem c1_merge_sorted (files : List EventFile) (p p2 h0 : String) (maxOpen : Nat)
    (hwf : ∀ f ∈ files, wellFormedSorted f.data = true)
    (hhd : ∀ f ∈ files, f.header = h0)
    (hne : files ≠ [])
    (hmo : 2 ≤ maxOpen) :
    (∃ out, merge_batch files p = .ok (some out) ∧ wellFormedSorted out.data = true) ∧
    (∃ out2, multi_pass_merge files p2 maxOpen = .ok (some out2) ∧
      wellFormedSorted out2.data = true) := by
  obtain ⟨out, hm, _, _, hwo, _⟩ := merge_batch_sorted files p h0 hwf hhd hne
  obtain ⟨res, hr, _, _, hwr, _⟩ :=
    multiPassGo_spec p2 maxOpen hmo h0 files.length files 0 (le_refl _) hne hwf hhd
  exact ⟨⟨out, hm, hwo⟩, ⟨res, hr, hwr⟩⟩

/-- Witness for C1 on the spec's three-source example. -/
theorem c1_merge_sorted_witness :
    (∃ out, merge_batch [⟨"a", "H", ["1,1", "1,3"]⟩, ⟨"b", "H", ["1,2", "1,4"]⟩,
        ⟨"c", "H", ["2,1"]⟩] "out" = .ok (some out) ∧ wellFormedSorted out.data = true) ∧
    (∃ out2, multi_pass_merge [⟨"a", "H", ["1,1", "1,3"]⟩, ⟨"b", "H", ["1,2", "1,4"]⟩,
        ⟨"c", "H", ["2,1"]⟩] "out2" 2 = .ok (some out2) ∧
      wellFormedSorted out2.data = true) :=
  c1_merge_sorted
    [⟨"a", "H", ["1,1", "1,3"]⟩, ⟨"b", "H", ["1,2", "1,4"]⟩, ⟨"c", "H", ["2,1"]⟩]
    "out" "out2" "H" 2 (by decide) (by decide) (by decide) (by decide)

/-- C3: for sorted files sharing one header line and any handle budget of
at least 2, `multi_pass_merge` produces output with the byte-identical
header and data lines of a single `merge_batch` over the same files in the
same order — in particular the result is independent of the budget, and
the tie-break by original source position is preserved across rounds. -/
theorem c3_multipass_equiv (files : List EventFile) (p p2 h0 : String) (maxOpen : Nat)
    (hwf : ∀ f ∈ files, wellFormedSorted f.data = true)
    (hhd : ∀ f ∈ files, f.header = h0)
    (hmo : 2 ≤ maxOpen) :
    ∃ r1 r2, merge_batch files p = .ok r1 ∧
      multi_pass_merge files p2 maxOpen = .ok r2 ∧
      r1.map (fun f => (f.header, f.data)) = r2.map (fun f => (f.header, f.data)) := by
  cases files with
  | nil =>
      refine ⟨none, none, ?_, ?_, rfl⟩
      · rfl
      · exact multiPassGo_base p2 maxOpen 0 0 [] (by simp)
  | cons f fs =>
      obtain ⟨out, hm, hop, hoh, hwo, hfo⟩ :=
        merge_batch_sorted (f :: fs) p h0 hwf hhd (by simp)
      obtain ⟨res, hr, hrp, hrh, hwr, hfr⟩ :=
        multiPassGo_spec p2 maxOpen hmo h0 (f :: fs).length (f :: fs) 0 (le_refl _)
          (by simp) hwf hhd
      refine ⟨some out, some res, hm, hr, ?_⟩
      have hdata : out.data = res.data :=
        sorted_fiber_unique out.data res.data hwo hwr
          (fun k => by rw [hfo k, hfr k])
      simp only [Option.map_some']
      rw [hoh, hrh, hdata]

/-- Witness for C3 at the three-source example with budget 2. -/
theorem c3_multipass_equiv_witness :
    ∃ r1 r2, merge_batch [⟨"a", "H", ["1,1", "1,3"]⟩, ⟨"b", "H", ["1,2", "1,4"]⟩,
        ⟨"c", "H", ["2,1"]⟩] "out" = .ok r1 ∧
      multi_pass_merge [⟨"a", "H", ["1,1", "1,3"]⟩, ⟨"b", "H", ["1,2", "1,4"]⟩,
        ⟨"c", "H", ["2,1"]⟩] "out2" 2 = .ok r2 ∧
      r1.map (fun f => (f.header, f.data)) = r2.map (fun f => (f.header, f.data)) :=
  c3_multipass_equiv
    [⟨"a", "H", ["1,1", "1,3"]⟩, ⟨"b", "H", ["1,2", "1,4"]⟩, ⟨"c", "H", ["2,1"]⟩]
    "out" "out2" "H" 2 (by decide) (by decide) (by decide)

end SzseMerge
